import Mathlib

/-!
Verification of the line-addressed text edit engine.

The engine stores the document as an ordered sequence of lines (in the source,
the child `div` elements of the text body; here, a `List Str` where `Str` is a
list of characters).  Edits are canonical `Change` records (insert / remove)
kept in a linear undo/redo `History`.

All definitions below are translated from the module-level implementation
(`src/unnamed/part_001`); the namespace `TextEditor` at the end of the
definition section holds the class-based implementation (`src/unnamed/part_000`)
for the equivalence theorem.
-/

/-- Characters of a JS string. -/
abbrev Str := List Char

/-- JS `s.slice(a, b)` for nonnegative in-order arguments: characters from
index `a` (inclusive) to `b` (exclusive), clamped to the string. -/
def jsSlice (s : Str) (a b : Nat) : Str := (s.take b).drop a

/-- JS `s.split("\n")`: splits on every newline character; never returns an
empty list (splitting the empty string gives `[""]`). -/
def splitNl : Str → List Str
  | [] => [[]]
  | c :: cs =>
    match splitNl cs with
    | r :: rs => if c = '\n' then [] :: r :: rs else (c :: r) :: rs
    | [] => [[]]

/-- A caret address: `{line, offset}` (source type `TextPosition`). -/
structure TextPosition where
  line : Nat
  offset : Nat
deriving DecidableEq, Repr

/-- The two kinds of `Change` (source type `ChangeType`). -/
inductive ChangeType where
  | insertText
  | removeText
deriving DecidableEq, Repr

/-- A reversible edit record (source type `Change`). -/
structure Change where
  type : ChangeType
  text : Str
  position : TextPosition
deriving DecidableEq, Repr

/-- Deletion direction for collapsed selections (source type `RemoveMode`). -/
inductive RemoveMode where
  | forward
  | backward
deriving DecidableEq, Repr

/-- Undo/redo stacks (source class `History`).  The JS arrays push/pop at the
end; here the head of each list is the top of the stack. -/
structure History where
  past : List Change
  future : List Change
deriving DecidableEq, Repr

/-- Source `History.push`: pushes onto `past` and empties `future`. -/
def History.push (h : History) (c : Change) : History :=
  { past := c :: h.past, future := [] }

/-- Source `History.canUndo`: `past.length > 0`. -/
def History.canUndo (h : History) : Bool := decide (0 < h.past.length)

/-- Source `History.canRedo`: `future.length > 0`. -/
def History.canRedo (h : History) : Bool := decide (0 < h.future.length)

/-- Source `History.undo`: pops `past` onto `future`, returning the popped
change (or `none` when `past` is empty). -/
def History.undo (h : History) : Option Change × History :=
  match h.past with
  | [] => (none, h)
  | c :: rest => (some c, { past := rest, future := c :: h.future })

/-- Source `History.redo`: pops `future` onto `past`, returning the popped
change (or `none` when `future` is empty). -/
def History.redo (h : History) : Option Change × History :=
  match h.future with
  | [] => (none, h)
  | c :: rest => (some c, { past := c :: h.past, future := rest })

/-- Forward sweep of the source `movePosition` loop (`signDelta = 1`).
`curLen` is the length of the current line, `rest` the lines after it
(successive `nextSibling`s), `lineNr` the current line index. -/
def moveFwdGo (offset absDelta curLen : Nat) (rest : List Str) (lineNr : Nat) :
    Nat × Nat :=
  let remaining := curLen - offset
  let step := min remaining absDelta
  let offset := offset + step
  let absDelta := absDelta - step
  if absDelta = 0 then (lineNr, offset)
  else
    match rest with
    | [] => (lineNr, offset)
    | l :: rest => moveFwdGo 0 (absDelta - 1) l.length rest (lineNr + 1)

/-- Backward sweep of the source `movePosition` loop (`signDelta = -1`).
`prev` lists the lines before the current one, nearest first (successive
`previousSibling`s). -/
def moveBwdGo (offset absDelta : Nat) (prev : List Str) (lineNr : Nat) :
    Nat × Nat :=
  let remaining := offset
  let step := min remaining absDelta
  let offset := offset - step
  let absDelta := absDelta - step
  if absDelta = 0 then (lineNr, offset)
  else
    match prev with
    | [] => (lineNr, offset)
    | l :: prev => moveBwdGo l.length (absDelta - 1) prev (lineNr - 1)

/-- Source `movePosition`: walks `|delta|` characters from `position`,
charging one unit per implicit line break, clamped at the buffer ends.
Pure in the buffer. -/
def movePosition (buf : List Str) (position : TextPosition) (delta : Int) :
    TextPosition :=
  let r :=
    if 0 ≤ delta then
      moveFwdGo position.offset delta.toNat (buf.getD position.line []).length
        (buf.drop (position.line + 1)) position.line
    else
      moveBwdGo position.offset (-delta).toNat
        ((buf.take position.line).reverse) position.line
  { line := r.1, offset := r.2 }

/-- Body of the source `getText` loop: the piece contributed by line
`lineNr` of the requested range. -/
def rowPiece (buf : List Str) (f t : TextPosition) (lineNr : Nat) : Str :=
  let lineText := buf.getD lineNr []
  if f.line = t.line then jsSlice lineText f.offset t.offset
  else if lineNr = f.line then lineText.drop f.offset
  else if lineNr = t.line then lineText.take t.offset
  else lineText

/-- The source `getText` loop, running `count` further iterations starting at
line `lineNr`; a `"\n"` is prepended to every piece after the first line of
the range. -/
def getTextGo (buf : List Str) (f t : TextPosition) : Nat → Nat → Str
  | _, 0 => []
  | lineNr, count + 1 =>
    (if f.line < lineNr then ['\n'] else []) ++ rowPiece buf f t lineNr ++
      getTextGo buf f t (lineNr + 1) count

/-- Source `getText`: concatenates the in-range pieces of lines
`from.line .. to.line`, separated by newlines. -/
def getText (buf : List Str) (f t : TextPosition) : Str :=
  getTextGo buf f t f.line (t.line + 1 - f.line)

/-- Inner part of the source `insertText` loop for the segments after the
first: every segment becomes a fresh line inserted after the current one, and
the last segment is extended with `tail`, the cut-off remainder of the
original line. -/
def midLast (tail : Str) : List Str → List Str
  | [] => []
  | [s] => [s ++ tail]
  | s :: rest => s :: midLast tail rest

/-- Source `insertText`: splits `text` on newlines; a single segment is
spliced into the current line, several segments split the current line at
`offset` and insert the new lines after it.  Returns the new buffer (the
source mutates the DOM lines in place) together with the returned caret
position. -/
def insertText (buf : List Str) (position : TextPosition) (text : Str) :
    List Str × TextPosition :=
  let textLines := splitNl text
  let originalText := buf.getD position.line []
  match textLines with
  | [] => (buf, position)
  | [seg] =>
    let newText := originalText.take position.offset ++ seg ++
      originalText.drop position.offset
    (buf.set position.line newText,
     { line := position.line, offset := position.offset + seg.length })
  | seg0 :: rest =>
    let newLines := (originalText.take position.offset ++ seg0) ::
      midLast (originalText.drop position.offset) rest
    (buf.take position.line ++ newLines ++ buf.drop (position.line + 1),
     { line := position.line + (seg0 :: rest).length - 1,
       offset := ((seg0 :: rest).getLastD []).length })

/-- The source `removeText` loop: removes `count` lines, each time the line
right after line `fl` (its `nextSibling`). -/
def removeLoop (buf : List Str) (fl : Nat) : Nat → List Str
  | 0 => buf
  | count + 1 => removeLoop (buf.eraseIdx (fl + 1)) fl count

/-- Source `removeText`: merges the prefix of the `from` line with the suffix
of the `to` line and deletes the lines in between (and the old `to` line). -/
def removeText (buf : List Str) (f t : TextPosition) : List Str :=
  let firstLine := buf.getD f.line []
  let lastLine := buf.getD t.line []
  let newText := firstLine.take f.offset ++ lastLine.drop t.offset
  removeLoop (buf.set f.line newText) f.line (t.line - f.line)

/-- Source `doChange`: replays a `Change` against the buffer.  A remove
change recomputes its end position by walking `text.length` characters from
the recorded start. -/
def doChange (buf : List Str) (change : Change) : List Str :=
  match change.type with
  | ChangeType.insertText => (insertText buf change.position change.text).1
  | ChangeType.removeText =>
    let toPosition := movePosition buf change.position (change.text.length : Int)
    removeText buf change.position toPosition

/-- Source `invertChange`: swaps the change kind, keeping text and position. -/
def invertChange (change : Change) : Change :=
  match change.type with
  | ChangeType.insertText =>
    { type := ChangeType.removeText, text := change.text, position := change.position }
  | ChangeType.removeText =>
    { type := ChangeType.insertText, text := change.text, position := change.position }

/-- Editor-session state: the buffer plus the change history (in the source,
the DOM line sequence and the module-level `changeHistory`). -/
structure EditorState where
  buffer : List Str
  history : History
deriving DecidableEq, Repr

/-- Source `undoChange`: applies the inverse of a change. -/
def undoChange (s : EditorState) (c : Change) : EditorState :=
  { s with buffer := doChange s.buffer (invertChange c) }

/-- Source `undo`: pops the last change, if any, and replays its inverse. -/
def undo (s : EditorState) : EditorState :=
  if s.history.canUndo then
    let r := History.undo s.history
    match r.1 with
    | some c => { buffer := doChange s.buffer (invertChange c), history := r.2 }
    | none => { s with history := r.2 }
  else s

/-- Source `redo`: pops the next undone change, if any, and replays it as-is. -/
def redo (s : EditorState) : EditorState :=
  if s.history.canRedo then
    let r := History.redo s.history
    match r.1 with
    | some c => { buffer := doChange s.buffer c, history := r.2 }
    | none => { s with history := r.2 }
  else s

/-- A single selection range, already resolved to buffer coordinates
(start and end container/offset pairs of the source's DOM `Range`; the start
and end containers coincide exactly when the positions coincide). -/
structure Selection where
  startPos : TextPosition
  endPos : TextPosition
deriving DecidableEq, Repr

/-- Source `removeTextAction`: determines the target range from the selection
(or one step in the delete direction when collapsed), aborts when the range is
empty, otherwise captures the removed text, removes it, and pushes a remove
change. -/
def removeTextAction (s : EditorState) (sel : Selection) (mode : RemoveMode) :
    EditorState :=
  let startPosition := sel.startPos
  let endPosition := sel.endPos
  let isSelected := sel.startPos ≠ sel.endPos
  let fromPosition :=
    if isSelected then startPosition
    else if mode = RemoveMode.forward then startPosition
    else movePosition s.buffer startPosition (-1)
  let toPosition :=
    if isSelected then endPosition
    else if mode = RemoveMode.forward then movePosition s.buffer endPosition 1
    else endPosition
  if fromPosition.line = toPosition.line ∧ fromPosition.offset = toPosition.offset
  then s
  else
    let removedText := getText s.buffer fromPosition toPosition
    { buffer := removeText s.buffer fromPosition toPosition,
      history := s.history.push
        { type := ChangeType.removeText, text := removedText,
          position := fromPosition } }

/-- Source `insertTextAction`: if the selection is non-collapsed, first runs
the backward remove action on it, then inserts `text` at the captured start
position and pushes an insert change. -/
def insertTextAction (s : EditorState) (sel : Selection) (text : Str) :
    EditorState :=
  let position := sel.startPos
  let s :=
    if sel.startPos ≠ sel.endPos then removeTextAction s sel RemoveMode.backward
    else s
  let r := insertText s.buffer position text
  { buffer := r.1,
    history := s.history.push
      { type := ChangeType.insertText, text := text, position := position } }

/-- A DOM node handed to `getPosition`: its tag name, its own identity and the
identity of its parent (text nodes resolve to their parent line `div`). -/
structure DomNode where
  nodeName : String
  selfId : Nat
  parentId : Nat
deriving DecidableEq, Repr

/-- JS `Array.prototype.indexOf`: first index of `x`, or `-1` when absent. -/
def jsIndexOf (l : List Nat) (x : Nat) : Int :=
  match l with
  | [] => -1
  | y :: ys =>
    if y = x then 0
    else
      let r := jsIndexOf ys x
      if r = -1 then -1 else r + 1

/-- The line `div` a container resolves to in the source `getPosition`. -/
def containerLine (container : DomNode) : Nat :=
  if container.nodeName = "DIV" then container.selfId else container.parentId

/-- Source `getPosition`: looks the resolved line up among the text body's
children (`bodyLines`, by identity) and pairs the resulting index — `-1` when
the container is not a current line — with the given offset. -/
def getPosition (bodyLines : List Nat) (container : DomNode) (offset : Int) :
    Int × Int :=
  let lineIndex := jsIndexOf bodyLines (containerLine container)
  (lineIndex, offset)

/-- Joins pieces with newline separators (left inverse of `splitNl`). -/
def joinNl : List Str → Str
  | [] => []
  | [s] => s
  | s :: rest => s ++ '\n' :: joinNl rest

/-- Joins pieces, prepending a newline before every piece. -/
def nlCat : List Str → Str
  | [] => []
  | s :: rest => '\n' :: (s ++ nlCat rest)


/-- The pieces the `getText` loop visits: `count` rows starting at `lineNr`. -/
def rowsFrom (buf : List Str) (f t : TextPosition) : Nat → Nat → List Str
  | 0, _ => []
  | count + 1, lineNr => rowPiece buf f t lineNr :: rowsFrom buf f t count (lineNr + 1)


/-! ### Specification-side predicates and iterated undo/redo -/

/-- Document order on positions: line first, then offset. -/
def posLe (f t : TextPosition) : Prop :=
  f.line < t.line ∨ (f.line = t.line ∧ f.offset ≤ t.offset)

/-- A position that exists in the buffer: a real line, and an offset no
larger than that line's length. -/
def InBoundsPos (buf : List Str) (p : TextPosition) : Prop :=
  p.line < buf.length ∧ p.offset ≤ (buf.getD p.line []).length

/-- Well-formed buffer: no line contains an embedded line break. -/
def WfBuf (buf : List Str) : Prop := ∀ l ∈ buf, '\n' ∉ l

/-- A change the interpreter can produce against buffer `buf`: its position
is in bounds, and a remove change carries exactly the text of an in-order,
in-bounds range starting at its position. -/
def Producible (buf : List Str) (c : Change) : Prop :=
  InBoundsPos buf c.position ∧
    (c.type = ChangeType.insertText ∨
      ∃ tp : TextPosition, InBoundsPos buf tp ∧ posLe c.position tp ∧
        c.text = getText buf c.position tp)

instance (f t : TextPosition) : Decidable (posLe f t) :=
  inferInstanceAs (Decidable (f.line < t.line ∨
    (f.line = t.line ∧ f.offset ≤ t.offset)))

instance (buf : List Str) (p : TextPosition) : Decidable (InBoundsPos buf p) :=
  inferInstanceAs (Decidable (p.line < buf.length ∧
    p.offset ≤ (buf.getD p.line []).length))

instance (buf : List Str) : Decidable (WfBuf buf) :=
  inferInstanceAs (Decidable (∀ l ∈ buf, '\n' ∉ l))

/-- Reachable push states: `Traces buf cs` holds when starting from some
well-formed buffer and applying the producible changes `cs` (most recent
first) via `doChange` leads to `buf`. -/
inductive Traces : List Str → List Change → Prop
  | nil (buf : List Str) (hwf : WfBuf buf) : Traces buf []
  | step (buf : List Str) (cs : List Change) (c : Change) (h : Traces buf cs)
      (hc : Producible buf c) : Traces (doChange buf c) (c :: cs)

/-- Calling `undo` `n` times. -/
def undoN : Nat → EditorState → EditorState
  | 0, s => s
  | n + 1, s => undoN n (undo s)

/-- Calling `redo` `n` times. -/
def redoN : Nat → EditorState → EditorState
  | 0, s => s
  | n + 1, s => redoN n (redo s)

/-! ### The class-based implementation (`src/unnamed/part_000`)

The `TextEditor` class of `part_000` declares the same data types and methods
as the module-level functions of `part_001`; the definitions below embed its
methods (the shared `History` class of both files is embedded once above).
-/

namespace TextEditor

/-- Part 000 `History.push` (lines 22-25, textually identical). -/
def historyPush (h : History) (c : Change) : History :=
  { past := c :: h.past, future := [] }

/-- Part 000 `History.canUndo`. -/
def historyCanUndo (h : History) : Bool := decide (0 < h.past.length)

/-- Part 000 `History.canRedo`. -/
def historyCanRedo (h : History) : Bool := decide (0 < h.future.length)

/-- Part 000 `History.undo`. -/
def historyUndo (h : History) : Option Change × History :=
  match h.past with
  | [] => (none, h)
  | c :: rest => (some c, { past := rest, future := c :: h.future })

/-- Part 000 `History.redo`. -/
def historyRedo (h : History) : Option Change × History :=
  match h.future with
  | [] => (none, h)
  | c :: rest => (some c, { past := c :: h.past, future := rest })

/-- Part 000 `movePosition` forward sweep. -/
def moveFwdGo (offset absDelta curLen : Nat) (rest : List Str) (lineNr : Nat) :
    Nat × Nat :=
  let remaining := curLen - offset
  let step := min remaining absDelta
  let offset := offset + step
  let absDelta := absDelta - step
  if absDelta = 0 then (lineNr, offset)
  else
    match rest with
    | [] => (lineNr, offset)
    | l :: rest => moveFwdGo 0 (absDelta - 1) l.length rest (lineNr + 1)

/-- Part 000 `movePosition` backward sweep. -/
def moveBwdGo (offset absDelta : Nat) (prev : List Str) (lineNr : Nat) :
    Nat × Nat :=
  let remaining := offset
  let step := min remaining absDelta
  let offset := offset - step
  let absDelta := absDelta - step
  if absDelta = 0 then (lineNr, offset)
  else
    match prev with
    | [] => (lineNr, offset)
    | l :: prev => moveBwdGo l.length (absDelta - 1) prev (lineNr - 1)

/-- Part 000 `TextEditor.movePosition` (lines 172-201). -/
def movePosition (buf : List Str) (position : TextPosition) (delta : Int) :
    TextPosition :=
  let r :=
    if 0 ≤ delta then
      moveFwdGo position.offset delta.toNat (buf.getD position.line []).length
        (buf.drop (position.line + 1)) position.line
    else
      moveBwdGo position.offset (-delta).toNat
        ((buf.take position.line).reverse) position.line
  { line := r.1, offset := r.2 }

/-- Part 000 `getText` loop body. -/
def rowPiece (buf : List Str) (f t : TextPosition) (lineNr : Nat) : Str :=
  let lineText := buf.getD lineNr []
  if f.line = t.line then jsSlice lineText f.offset t.offset
  else if lineNr = f.line then lineText.drop f.offset
  else if lineNr = t.line then lineText.take t.offset
  else lineText

/-- Part 000 `getText` loop. -/
def getTextGo (buf : List Str) (f t : TextPosition) : Nat → Nat → Str
  | _, 0 => []
  | lineNr, count + 1 =>
    (if f.line < lineNr then ['\n'] else []) ++ rowPiece buf f t lineNr ++
      getTextGo buf f t (lineNr + 1) count

/-- Part 000 `TextEditor.getText` (lines 203-226). -/
def getText (buf : List Str) (f t : TextPosition) : Str :=
  getTextGo buf f t f.line (t.line + 1 - f.line)

/-- Part 000 `insertText` loop for the segments after the first. -/
def midLast (tail : Str) : List Str → List Str
  | [] => []
  | [s] => [s ++ tail]
  | s :: rest => s :: midLast tail rest

/-- Part 000 `TextEditor.insertText` (lines 228-274). -/
def insertText (buf : List Str) (position : TextPosition) (text : Str) :
    List Str × TextPosition :=
  let textLines := splitNl text
  let originalText := buf.getD position.line []
  match textLines with
  | [] => (buf, position)
  | [seg] =>
    let newText := originalText.take position.offset ++ seg ++
      originalText.drop position.offset
    (buf.set position.line newText,
     { line := position.line, offset := position.offset + seg.length })
  | seg0 :: rest =>
    let newLines := (originalText.take position.offset ++ seg0) ::
      midLast (originalText.drop position.offset) rest
    (buf.take position.line ++ newLines ++ buf.drop (position.line + 1),
     { line := position.line + (seg0 :: rest).length - 1,
       offset := ((seg0 :: rest).getLastD []).length })

/-- Part 000 `removeText` loop. -/
def removeLoop (buf : List Str) (fl : Nat) : Nat → List Str
  | 0 => buf
  | count + 1 => removeLoop (buf.eraseIdx (fl + 1)) fl count

/-- Part 000 `TextEditor.removeText` (lines 276-289). -/
def removeText (buf : List Str) (f t : TextPosition) : List Str :=
  let firstLine := buf.getD f.line []
  let lastLine := buf.getD t.line []
  let newText := firstLine.take f.offset ++ lastLine.drop t.offset
  removeLoop (buf.set f.line newText) f.line (t.line - f.line)

/-- Part 000 `TextEditor.doChange` (lines 306-317). -/
def doChange (buf : List Str) (change : Change) : List Str :=
  match change.type with
  | ChangeType.insertText => (insertText buf change.position change.text).1
  | ChangeType.removeText =>
    let toPosition := movePosition buf change.position (change.text.length : Int)
    removeText buf change.position toPosition

/-- Part 000 `TextEditor.invertChange` (lines 319-335). -/
def invertChange (change : Change) : Change :=
  match change.type with
  | ChangeType.insertText =>
    { type := ChangeType.removeText, text := change.text, position := change.position }
  | ChangeType.removeText =>
    { type := ChangeType.insertText, text := change.text, position := change.position }

/-- Part 000 `TextEditor.undoChange` (lines 337-339). -/
def undoChange (s : EditorState) (c : Change) : EditorState :=
  { s with buffer := doChange s.buffer (invertChange c) }

/-- Part 000 `TextEditor.undo` (lines 341-347). -/
def undo (s : EditorState) : EditorState :=
  if historyCanUndo s.history then
    let r := historyUndo s.history
    match r.1 with
    | some c => { buffer := doChange s.buffer (invertChange c), history := r.2 }
    | none => { s with history := r.2 }
  else s

/-- Part 000 `TextEditor.redo` (lines 349-355). -/
def redo (s : EditorState) : EditorState :=
  if historyCanRedo s.history then
    let r := historyRedo s.history
    match r.1 with
    | some c => { buffer := doChange s.buffer c, history := r.2 }
    | none => { s with history := r.2 }
  else s

/-- Part 000 `TextEditor.removeTextAction` (lines 380-411). -/
def removeTextAction (s : EditorState) (sel : Selection) (mode : RemoveMode) :
    EditorState :=
  let startPosition := sel.startPos
  let endPosition := sel.endPos
  let isSelected := sel.startPos ≠ sel.endPos
  let fromPosition :=
    if isSelected then startPosition
    else if mode = RemoveMode.forward then startPosition
    else movePosition s.buffer startPosition (-1)
  let toPosition :=
    if isSelected then endPosition
    else if mode = RemoveMode.forward then movePosition s.buffer endPosition 1
    else endPosition
  if fromPosition.line = toPosition.line ∧ fromPosition.offset = toPosition.offset
  then s
  else
    let removedText := getText s.buffer fromPosition toPosition
    { buffer := removeText s.buffer fromPosition toPosition,
      history := historyPush s.history
        { type := ChangeType.removeText, text := removedText,
          position := fromPosition } }

/-- Part 000 `TextEditor.insertTextAction` (lines 357-378). -/
def insertTextAction (s : EditorState) (sel : Selection) (text : Str) :
    EditorState :=
  let position := sel.startPos
  let s :=
    if sel.startPos ≠ sel.endPos then removeTextAction s sel RemoveMode.backward
    else s
  let r := insertText s.buffer position text
  { buffer := r.1,
    history := historyPush s.history
      { type := ChangeType.insertText, text := text, position := position } }

end TextEditor


example : movePosition ["hello".toList, "world".toList] ⟨0, 3⟩ 4 = ⟨1, 1⟩ := by decide
example : movePosition ["hello".toList, "world".toList] ⟨1, 2⟩ (-4) = ⟨0, 4⟩ := by decide
example : movePosition ["hello".toList, "world".toList] ⟨0, 3⟩ 99 = ⟨1, 5⟩ := by decide
example : movePosition ["hello".toList, "world".toList] ⟨1, 2⟩ (-99) = ⟨0, 0⟩ := by decide
example : getText ["hello".toList, "world".toList] ⟨0, 3⟩ ⟨1, 2⟩ = "lo\nwo".toList := by
  decide
example : getText ["hello".toList] ⟨0, 1⟩ ⟨0, 3⟩ = "el".toList := by decide
example : insertText ["hello".toList, "world".toList] ⟨0, 5⟩ "\n!!".toList =
    (["hello".toList, "!!".toList, "world".toList], ⟨1, 2⟩) := by decide
example : removeText ["hello".toList, "!!".toList, "world".toList] ⟨0, 5⟩ ⟨1, 2⟩ =
    ["hello".toList, "world".toList] := by decide
example : removeText ["abc".toList] ⟨0, 1⟩ ⟨0, 2⟩ = ["ac".toList] := by decide

/-! ### Newline splitting and joining -/

theorem joinNl_cons (p : Str) (ps : List Str) : joinNl (p :: ps) = p ++ nlCat ps := by
  induction ps generalizing p with
  | nil => simp [joinNl, nlCat]
  | cons q qs ih => simp [joinNl, nlCat, ih q]

theorem splitNl_ne_nil (s : Str) : splitNl s ≠ [] := by
  cases s with
  | nil => simp [splitNl]
  | cons c cs =>
    simp only [splitNl]
    cases h : splitNl cs with
    | nil => simp
    | cons r rs => by_cases hc : c = '\n' <;> simp [hc]

theorem splitNl_no_nl (s : Str) : ∀ p ∈ splitNl s, '\n' ∉ p := by
  induction s with
  | nil => simp [splitNl]
  | cons c cs ih =>
    simp only [splitNl]
    cases h : splitNl cs with
    | nil => simp
    | cons r rs =>
      rw [h] at ih
      by_cases hc : c = '\n'
      · simp only [if_pos hc]
        intro p hp
        rcases List.mem_cons.mp hp with rfl | hp
        · simp
        · exact ih p hp
      · simp only [if_neg hc]
        intro p hp
        rcases List.mem_cons.mp hp with rfl | hp
        · intro hmem
          rcases List.mem_cons.mp hmem with h1 | h1
          · exact hc h1.symm
          · exact ih r (List.mem_cons_self r rs) h1
        · exact ih p (List.mem_cons.mpr (Or.inr hp))

theorem splitNl_of_no_nl (s : Str) (h : '\n' ∉ s) : splitNl s = [s] := by
  induction s with
  | nil => simp [splitNl]
  | cons c cs ih =>
    have hc : c ≠ '\n' := fun hh => h (by simp [hh])
    have hcs : '\n' ∉ cs := fun hh => h (by simp [hh])
    simp only [splitNl, ih hcs]
    simp [hc]

theorem joinNl_splitNl (s : Str) : joinNl (splitNl s) = s := by
  induction s with
  | nil => simp [splitNl, joinNl]
  | cons c cs ih =>
    cases h : splitNl cs with
    | nil => exact absurd h (splitNl_ne_nil cs)
    | cons r rs =>
      rw [h] at ih
      have hred : splitNl (c :: cs) =
          if c = '\n' then [] :: r :: rs else (c :: r) :: rs := by
        simp only [splitNl, h]
      rw [hred]
      by_cases hc : c = '\n'
      · rw [if_pos hc, hc]
        show ([] : Str) ++ '\n' :: joinNl (r :: rs) = '\n' :: cs
        rw [ih]
        rfl
      · rw [if_neg hc]
        cases rs with
        | nil =>
          have h1 : joinNl [r] = r := rfl
          have h2 : joinNl [c :: r] = c :: r := rfl
          rw [h1] at ih
          rw [h2, ih]
        | cons q qs =>
          have h1 : joinNl (r :: q :: qs) = r ++ '\n' :: joinNl (q :: qs) := rfl
          have h2 : joinNl ((c :: r) :: q :: qs) =
            (c :: r) ++ '\n' :: joinNl (q :: qs) := rfl
          rw [h1] at ih
          rw [h2, List.cons_append, ih]

theorem splitNl_append_cons (a s : Str) (h : '\n' ∉ a) :
    splitNl (a ++ '\n' :: s) = a :: splitNl s := by
  induction a with
  | nil =>
    simp only [List.nil_append, splitNl]
    cases hs : splitNl s with
    | nil => exact absurd hs (splitNl_ne_nil s)
    | cons r rs => simp
  | cons c cs ih =>
    have hc : c ≠ '\n' := fun hh => h (by simp [hh])
    have hcs : '\n' ∉ cs := fun hh => h (by simp [hh])
    have h2 := ih hcs
    cases hs : splitNl s with
    | nil => exact absurd hs (splitNl_ne_nil s)
    | cons r rs =>
      have hred : splitNl (c :: (cs ++ '\n' :: s)) =
          if c = '\n' then [] :: cs :: r :: rs else (c :: cs) :: r :: rs := by
        simp only [splitNl, h2, hs]
      show splitNl (c :: (cs ++ '\n' :: s)) = (c :: cs) :: r :: rs
      rw [hred, if_neg hc]

theorem splitNl_joinNl (ps : List Str) (hne : ps ≠ [])
    (h : ∀ p ∈ ps, '\n' ∉ p) : splitNl (joinNl ps) = ps := by
  induction ps with
  | nil => exact absurd rfl hne
  | cons p qs ih =>
    cases qs with
    | nil => exact splitNl_of_no_nl p (h p (List.mem_cons_self p []))
    | cons q rs =>
      have h1 : joinNl (p :: q :: rs) = p ++ '\n' :: joinNl (q :: rs) := rfl
      rw [h1, splitNl_append_cons p _ (h p (List.mem_cons_self p (q :: rs))),
        ih (by simp) (fun x hx => h x (List.mem_cons.mpr (Or.inr hx)))]

/-! ### Characterizing `getText` -/

theorem joinNl_cons_of_ne (p : Str) (ps : List Str) (h : ps ≠ []) :
    joinNl (p :: ps) = p ++ '\n' :: joinNl ps := by
  cases ps with
  | nil => exact absurd rfl h
  | cons q qs => rfl

theorem getTextGo_nlCat (buf : List Str) (f t : TextPosition) :
    ∀ (count lineNr : Nat), f.line < lineNr →
    getTextGo buf f t lineNr count = nlCat (rowsFrom buf f t count lineNr) := by
  intro count
  induction count with
  | zero => intro lineNr _; rfl
  | succ n ih =>
    intro lineNr h
    show (if f.line < lineNr then ['\n'] else []) ++ rowPiece buf f t lineNr ++
        getTextGo buf f t (lineNr + 1) n = _
    rw [if_pos h, ih (lineNr + 1) (Nat.lt_succ_of_lt h)]
    rfl

theorem getText_join (buf : List Str) (f t : TextPosition) (h : f.line ≤ t.line) :
    getText buf f t = joinNl (rowsFrom buf f t (t.line + 1 - f.line) f.line) := by
  have hc : t.line + 1 - f.line = (t.line - f.line) + 1 := by omega
  rw [getText, hc]
  show (if f.line < f.line then ['\n'] else []) ++ rowPiece buf f t f.line ++
      getTextGo buf f t (f.line + 1) (t.line - f.line) = _
  rw [if_neg (lt_irrefl _),
    getTextGo_nlCat buf f t _ _ (Nat.lt_succ_self _)]
  show rowPiece buf f t f.line ++ nlCat (rowsFrom buf f t (t.line - f.line) (f.line + 1)) =
    joinNl (rowPiece buf f t f.line :: rowsFrom buf f t (t.line - f.line) (f.line + 1))
  rw [joinNl_cons]

/-! ### List decomposition helpers -/

theorem getD_at_length (P Z : List Str) (x : Str) :
    (P ++ x :: Z).getD P.length [] = x := by
  induction P with
  | nil => rfl
  | cons p ps ih => simpa using ih

theorem drop_eq_getD_cons (l : List Str) (n : Nat) (h : n < l.length) :
    l.drop n = l.getD n [] :: l.drop (n + 1) := by
  induction l generalizing n with
  | nil => simp at h
  | cons x xs ih =>
    cases n with
    | zero => rfl
    | succ m => simpa using ih m (by simpa using h)

theorem buf_decomp (buf : List Str) (i j : Nat) (hij : i < j) (hj : j < buf.length) :
    buf = buf.take i ++ buf.getD i [] ::
      ((buf.drop (i + 1)).take (j - i - 1) ++ buf.getD j [] :: buf.drop (j + 1)) := by
  have h1 : buf = buf.take i ++ buf.drop i := (List.take_append_drop i buf).symm
  have h2 : buf.drop i = buf.getD i [] :: buf.drop (i + 1) :=
    drop_eq_getD_cons buf i (lt_trans hij hj)
  have h3 : buf.drop (i + 1) =
      (buf.drop (i + 1)).take (j - i - 1) ++ (buf.drop (i + 1)).drop (j - i - 1) :=
    (List.take_append_drop _ _).symm
  have h4 : (buf.drop (i + 1)).drop (j - i - 1) = buf.drop j := by
    rw [List.drop_drop]
    congr 1
    omega
  have h5 : buf.drop j = buf.getD j [] :: buf.drop (j + 1) :=
    drop_eq_getD_cons buf j hj
  rw [h4, h5] at h3
  rw [h3] at h2
  rw [h2] at h1
  exact h1

theorem set_at_length (P Z : List Str) (x y : Str) :
    (P ++ x :: Z).set P.length y = P ++ y :: Z := by
  induction P with
  | nil => rfl
  | cons p ps ih => simpa using ih

theorem set_getD_self (l : List Str) (i : Nat) : l.set i (l.getD i []) = l := by
  induction l generalizing i with
  | nil => rfl
  | cons x xs ih =>
    cases i with
    | zero => rfl
    | succ n => simpa using ih n

theorem eraseIdx_inner (P : List Str) (x w : Str) (W : List Str) :
    (P ++ x :: w :: W).eraseIdx (P.length + 1) = P ++ x :: W := by
  induction P with
  | nil => rfl
  | cons p ps ih => simpa using ih

theorem eraseIdx_past (P : List Str) (x : Str) :
    (P ++ [x]).eraseIdx (P.length + 1) = P ++ [x] := by
  induction P with
  | nil => rfl
  | cons p ps ih => simpa using ih

theorem removeLoop_drop (P : List Str) (x : Str) :
    ∀ (k : Nat) (W : List Str),
    removeLoop (P ++ x :: W) P.length k = P ++ x :: W.drop k := by
  intro k
  induction k with
  | zero => intro W; simp [removeLoop]
  | succ n ih =>
    intro W
    cases W with
    | nil =>
      show removeLoop ((P ++ [x]).eraseIdx (P.length + 1)) P.length n = P ++ [x]
      rw [eraseIdx_past]
      simpa using ih []
    | cons w ws =>
      show removeLoop ((P ++ x :: w :: ws).eraseIdx (P.length + 1)) P.length n =
        P ++ x :: (w :: ws).drop (n + 1)
      rw [eraseIdx_inner, ih ws]
      rfl

theorem rowsFrom_seg (f t : TextPosition) (lt : Str) (R : List Str) :
    ∀ (mids Q : List Str), f.line < Q.length → t.line = Q.length + mids.length →
    rowsFrom (Q ++ mids ++ lt :: R) f t (mids.length + 1) Q.length =
      mids ++ [lt.take t.offset] := by
  intro mids
  induction mids with
  | nil =>
    intro Q hf ht
    simp only [List.length_nil, Nat.add_zero] at ht
    simp only [List.append_nil, List.length_nil, Nat.zero_add]
    show rowPiece (Q ++ lt :: R) f t Q.length ::
      rowsFrom (Q ++ lt :: R) f t 0 (Q.length + 1) = [lt.take t.offset]
    simp only [rowPiece, getD_at_length]
    rw [if_neg (by omega : ¬ f.line = t.line), if_neg (by omega : ¬ Q.length = f.line),
      if_pos (by omega : Q.length = t.line)]
    rfl
  | cons m ms ih =>
    intro Q hf ht
    simp only [List.length_cons] at ht
    show rowPiece (Q ++ (m :: ms) ++ lt :: R) f t Q.length ::
      rowsFrom (Q ++ (m :: ms) ++ lt :: R) f t (ms.length + 1) (Q.length + 1) =
      m :: (ms ++ [lt.take t.offset])
    have hget : (Q ++ (m :: ms) ++ lt :: R).getD Q.length [] = m := by
      have hsh : Q ++ (m :: ms) ++ lt :: R = Q ++ m :: (ms ++ lt :: R) := by simp
      rw [hsh, getD_at_length]
    congr 1
    · simp only [rowPiece, hget]
      rw [if_neg (by omega : ¬ f.line = t.line),
        if_neg (by omega : ¬ Q.length = f.line),
        if_neg (by omega : ¬ Q.length = t.line)]
    · have hsh : Q ++ (m :: ms) ++ lt :: R = (Q ++ [m]) ++ ms ++ lt :: R := by simp
      rw [hsh]
      have := ih (Q ++ [m]) (by simp; omega) (by simp; omega)
      simpa using this

theorem getText_decomp (f t : TextPosition) (P mids : List Str) (cur lt : Str)
    (R : List Str) (hf : f.line = P.length)
    (ht : t.line = P.length + mids.length + 1) :
    getText (P ++ cur :: (mids ++ lt :: R)) f t =
      cur.drop f.offset ++ '\n' :: joinNl (mids ++ [lt.take t.offset]) := by
  rw [getText_join _ _ _ (by omega)]
  have hcount : t.line + 1 - f.line = (mids.length + 1) + 1 := by omega
  rw [hcount]
  show joinNl (rowPiece (P ++ cur :: (mids ++ lt :: R)) f t f.line ::
    rowsFrom (P ++ cur :: (mids ++ lt :: R)) f t (mids.length + 1) (f.line + 1)) = _
  have hget : (P ++ cur :: (mids ++ lt :: R)).getD f.line [] = cur := by
    rw [hf, getD_at_length]
  have hpiece : rowPiece (P ++ cur :: (mids ++ lt :: R)) f t f.line =
      cur.drop f.offset := by
    simp only [rowPiece, hget]
    rw [if_neg (by omega : ¬ f.line = t.line)]
    simp
  have hrows : rowsFrom (P ++ cur :: (mids ++ lt :: R)) f t (mids.length + 1)
      (f.line + 1) = mids ++ [lt.take t.offset] := by
    have hsh : P ++ cur :: (mids ++ lt :: R) = (P ++ [cur]) ++ mids ++ lt :: R := by
      simp
    rw [hsh, hf]
    have := rowsFrom_seg f t lt R mids (P ++ [cur]) (by simp; omega)
      (by simp; omega)
    simpa using this
  rw [hpiece, hrows, joinNl_cons_of_ne _ _ (by simp)]

theorem getText_line (buf : List Str) (f t : TextPosition) (h : f.line = t.line) :
    getText buf f t = jsSlice (buf.getD f.line []) f.offset t.offset := by
  rw [getText_join buf f t (by omega)]
  have hcount : t.line + 1 - f.line = 1 := by omega
  rw [hcount]
  show joinNl [rowPiece buf f t f.line] = _
  have hp : rowPiece buf f t f.line = jsSlice (buf.getD f.line []) f.offset t.offset := by
    simp only [rowPiece]
    rw [if_pos h]
  rw [hp]
  rfl

/-! ### Walking `movePosition` forward -/

theorem moveFwdGo_cons (offset absDelta curLen : Nat) (l : Str) (rest : List Str)
    (lineNr : Nat) :
    moveFwdGo offset absDelta curLen (l :: rest) lineNr =
      if absDelta - min (curLen - offset) absDelta = 0 then
        (lineNr, offset + min (curLen - offset) absDelta)
      else
        moveFwdGo 0 (absDelta - min (curLen - offset) absDelta - 1) l.length rest
          (lineNr + 1) := rfl

theorem moveFwdGo_nil (offset absDelta curLen lineNr : Nat) :
    moveFwdGo offset absDelta curLen [] lineNr =
      (lineNr, offset + min (curLen - offset) absDelta) := by
  show (if absDelta - min (curLen - offset) absDelta = 0 then
      (lineNr, offset + min (curLen - offset) absDelta)
    else (lineNr, offset + min (curLen - offset) absDelta)) = _
  simp

theorem moveFwdGo_within (offset absDelta curLen : Nat) (rest : List Str)
    (lineNr : Nat) (h : absDelta ≤ curLen - offset) :
    moveFwdGo offset absDelta curLen rest lineNr = (lineNr, offset + absDelta) := by
  have hmin : min (curLen - offset) absDelta = absDelta := Nat.min_eq_right h
  cases rest with
  | nil => rw [moveFwdGo_nil, hmin]
  | cons l rest => rw [moveFwdGo_cons, hmin, Nat.sub_self, if_pos rfl]

theorem moveFwdGo_cross (offset curLen d : Nat) (l : Str) (rest : List Str)
    (lineNr : Nat) :
    moveFwdGo offset (curLen - offset + (1 + d)) curLen (l :: rest) lineNr =
      moveFwdGo 0 d l.length rest (lineNr + 1) := by
  rw [moveFwdGo_cons]
  have hmin : min (curLen - offset) (curLen - offset + (1 + d)) = curLen - offset :=
    Nat.min_eq_left (Nat.le_add_right _ _)
  rw [hmin]
  have h1 : curLen - offset + (1 + d) - (curLen - offset) = 1 + d := by omega
  rw [h1, if_neg (by omega), (by omega : 1 + d - 1 = d)]

theorem take_at_length (P Z : List Str) (x : Str) :
    (P ++ x :: Z).take P.length = P := by
  induction P with
  | nil => rfl
  | cons p ps ih => simpa using ih

theorem drop_at_length (P Z : List Str) (x : Str) :
    (P ++ x :: Z).drop (P.length + 1) = Z := by
  induction P with
  | nil => rfl
  | cons p ps ih => simpa using ih

theorem moveFwdGo_text (lt : Str) (toff : Nat) (ht : toff ≤ lt.length) :
    ∀ (mids : List Str) (lineNr : Nat) (cur : Str) (off : Nat),
    ∀ (rest : List Str),
    moveFwdGo off (cur.drop off ++ '\n' :: joinNl (mids ++ [lt.take toff])).length
      cur.length (mids ++ lt :: rest) lineNr = (lineNr + (mids.length + 1), toff) := by
  have htake : (lt.take toff).length = toff := by
    rw [List.length_take]
    exact Nat.min_eq_left ht
  intro mids
  induction mids with
  | nil =>
    intro lineNr cur off rest
    have hlen : (cur.drop off ++ '\n' :: joinNl (([] : List Str) ++ [lt.take toff])).length
        = cur.length - off + (1 + toff) := by
      simp [joinNl, htake, List.length_drop]
      omega
    rw [hlen]
    show moveFwdGo off (cur.length - off + (1 + toff)) cur.length (lt :: rest) lineNr = _
    rw [moveFwdGo_cross off cur.length toff lt rest lineNr,
      moveFwdGo_within 0 toff lt.length rest (lineNr + 1) (by simpa using ht)]
    simp
  | cons m ms ih =>
    intro lineNr cur off rest
    have hj : joinNl ((m :: ms) ++ [lt.take toff]) =
        m ++ '\n' :: joinNl (ms ++ [lt.take toff]) := by
      rw [List.cons_append, joinNl_cons_of_ne _ _ (by simp)]
    have hlen : (cur.drop off ++ '\n' :: joinNl ((m :: ms) ++ [lt.take toff])).length
        = cur.length - off +
          (1 + (m.drop 0 ++ '\n' :: joinNl (ms ++ [lt.take toff])).length) := by
      rw [hj]
      simp [List.length_append, List.length_drop]
      omega
    rw [hlen]
    show moveFwdGo off
      (cur.length - off + (1 + (m.drop 0 ++ '\n' :: joinNl (ms ++ [lt.take toff])).length))
      cur.length (m :: (ms ++ lt :: rest)) lineNr = _
    rw [moveFwdGo_cross, ih (lineNr + 1) m 0 rest]
    have harith : lineNr + 1 + (ms.length + 1) = lineNr + ((m :: ms).length + 1) := by
      simp
      omega
    rw [harith]

theorem movePosition_getText_gen (f t : TextPosition) (P mids : List Str)
    (cur lt : Str) (R : List Str) (hf : f.line = P.length)
    (ht : t.line = P.length + mids.length + 1) (hfo : f.offset ≤ cur.length)
    (hto : t.offset ≤ lt.length) :
    movePosition (P ++ cur :: (mids ++ lt :: R)) f
      ((getText (P ++ cur :: (mids ++ lt :: R)) f t).length : Int) = t := by
  rw [getText_decomp f t P mids cur lt R hf ht]
  have hget : (P ++ cur :: (mids ++ lt :: R)).getD f.line [] = cur := by
    rw [hf, getD_at_length]
  have hdrop : (P ++ cur :: (mids ++ lt :: R)).drop (f.line + 1) = mids ++ lt :: R := by
    rw [hf, drop_at_length]
  simp only [movePosition, if_pos (Int.natCast_nonneg _), Int.toNat_natCast,
    hget, hdrop]
  rw [moveFwdGo_text lt t.offset hto mids f.line cur f.offset R]
  cases t with
  | mk tl toff =>
    simp only [TextPosition.mk.injEq] at ht ⊢
    refine ⟨by omega, trivial⟩

theorem movePosition_getText_line (buf : List Str) (f t : TextPosition)
    (heq : f.line = t.line) (hto : t.offset ≤ (buf.getD f.line []).length)
    (hoffle : f.offset ≤ t.offset) :
    movePosition buf f ((getText buf f t).length : Int) = t := by
  rw [getText_line buf f t heq]
  have hslice : ∀ (l : Str) (a b : Nat), b ≤ l.length →
      (jsSlice l a b).length = b - a := by
    intro l a b hb
    simp only [jsSlice, List.length_drop, List.length_take]
    omega
  rw [hslice _ _ _ hto]
  simp only [movePosition, if_pos (Int.natCast_nonneg _), Int.toNat_natCast]
  rw [moveFwdGo_within _ _ _ _ _ (by omega)]
  cases t with
  | mk tl toff =>
    simp only [TextPosition.mk.injEq]
    simp only [TextPosition.line, TextPosition.offset] at heq hoffle
    refine ⟨by omega, by omega⟩

theorem movePosition_getText (buf : List Str) (f t : TextPosition)
    (hf : InBoundsPos buf f) (ht : InBoundsPos buf t) (hle : posLe f t) :
    movePosition buf f ((getText buf f t).length : Int) = t := by
  obtain ⟨hfl, hfo⟩ := hf
  obtain ⟨htl, hto⟩ := ht
  rcases hle with hlt | ⟨heq, hoffle⟩
  · have hdec := buf_decomp buf f.line t.line hlt htl
    have hlenP : (buf.take f.line).length = f.line := by
      rw [List.length_take]
      omega
    have hlenM : ((buf.drop (f.line + 1)).take (t.line - f.line - 1)).length =
        t.line - f.line - 1 := by
      rw [List.length_take, List.length_drop]
      omega
    rw [hdec]
    apply movePosition_getText_gen
    · omega
    · rw [hlenP, hlenM]
      omega
    · exact hfo
    · exact hto
  · exact movePosition_getText_line buf f t heq (heq ▸ hto) hoffle

/-! ### Closed forms for `removeText` and `insertText` -/

theorem removeText_decomp (f t : TextPosition) (P mids : List Str) (cur lt : Str)
    (R : List Str) (hf : f.line = P.length)
    (ht : t.line = P.length + mids.length + 1) :
    removeText (P ++ cur :: (mids ++ lt :: R)) f t =
      P ++ (cur.take f.offset ++ lt.drop t.offset) :: R := by
  have hget1 : (P ++ cur :: (mids ++ lt :: R)).getD f.line [] = cur := by
    rw [hf, getD_at_length]
  have hget2 : (P ++ cur :: (mids ++ lt :: R)).getD t.line [] = lt := by
    have hsh : P ++ cur :: (mids ++ lt :: R) = (P ++ cur :: mids) ++ lt :: R := by
      simp
    have hlen : P.length + mids.length + 1 = (P ++ cur :: mids).length := by
      simp
      omega
    rw [hsh, ht, hlen, getD_at_length]
  simp only [removeText, hget1, hget2]
  have hset : (P ++ cur :: (mids ++ lt :: R)).set f.line
      (cur.take f.offset ++ lt.drop t.offset) =
      P ++ (cur.take f.offset ++ lt.drop t.offset) :: (mids ++ lt :: R) := by
    rw [hf, set_at_length]
  rw [hset]
  have hcount : t.line - f.line = mids.length + 1 := by omega
  rw [hcount, hf, removeLoop_drop, drop_at_length]

theorem removeText_line (buf : List Str) (f t : TextPosition) (h : t.line = f.line) :
    removeText buf f t = buf.set f.line
      ((buf.getD f.line []).take f.offset ++ (buf.getD t.line []).drop t.offset) := by
  simp only [removeText, h, Nat.sub_self]
  rfl

theorem removeText_self (buf : List Str) (p : TextPosition) :
    removeText buf p p = buf := by
  rw [removeText_line buf p p rfl, List.take_append_drop]
  exact set_getD_self buf p.line

theorem midLast_append (tail : Str) : ∀ (mid : List Str) (sl : Str),
    midLast tail (mid ++ [sl]) = mid ++ [sl ++ tail] := by
  intro mid
  induction mid with
  | nil => intro sl; rfl
  | cons m ms ih =>
    intro sl
    show midLast tail (m :: (ms ++ [sl])) = m :: (ms ++ [sl ++ tail])
    cases hq : ms ++ [sl] with
    | nil => exact absurd hq (by simp)
    | cons q qs =>
      show m :: midLast tail (q :: qs) = m :: (ms ++ [sl ++ tail])
      rw [← hq, ih sl]

theorem insertText_single (buf : List Str) (p : TextPosition) (text : Str)
    (h : '\n' ∉ text) :
    insertText buf p text =
      (buf.set p.line ((buf.getD p.line []).take p.offset ++ text ++
        (buf.getD p.line []).drop p.offset),
       ⟨p.line, p.offset + text.length⟩) := by
  simp only [insertText, splitNl_of_no_nl text h]

theorem insertText_multi (buf : List Str) (p : TextPosition) (text s0 sl : Str)
    (mid : List Str) (hsplit : splitNl text = s0 :: (mid ++ [sl])) :
    insertText buf p text =
      (buf.take p.line ++
        ((buf.getD p.line []).take p.offset ++ s0) ::
          (mid ++ [sl ++ (buf.getD p.line []).drop p.offset]) ++
        buf.drop (p.line + 1),
       ⟨p.line + (mid.length + 1), sl.length⟩) := by
  cases hm : mid ++ [sl] with
  | nil => exact absurd hm (by simp)
  | cons q qs =>
    rw [hm] at hsplit
    simp only [insertText, hsplit]
    refine Prod.ext ?_ ?_
    · show buf.take p.line ++
        (((buf.getD p.line []).take p.offset ++ s0) ::
          midLast ((buf.getD p.line []).drop p.offset) (q :: qs)) ++
        buf.drop (p.line + 1) = _
      rw [← hm, midLast_append]
    · show (⟨p.line + (s0 :: q :: qs).length - 1,
          ((s0 :: q :: qs).getLastD []).length⟩ : TextPosition) = _
      have hlast : (s0 :: q :: qs).getLastD [] = sl := by
        rw [List.getLastD_cons, ← hm, List.getLastD_concat]
      have hlen : (q :: qs).length = mid.length + 1 := by
        rw [← hm]
        simp
      rw [hlast]
      simp only [List.length_cons] at hlen
      simp only [TextPosition.mk.injEq, List.length_cons]
      exact ⟨by omega, trivial⟩

/-! ### Round-trip of a single change -/

theorem mem_getD (l : List Str) (i : Nat) (h : i < l.length) : l.getD i [] ∈ l := by
  have hd : l.getD i [] ∈ l.drop i := by
    rw [drop_eq_getD_cons l i h]
    exact List.mem_cons_self _ _
  exact List.drop_subset i l hd

theorem wf_getD (buf : List Str) (hwf : WfBuf buf) (i : Nat) :
    '\n' ∉ buf.getD i [] := by
  by_cases h : i < buf.length
  · exact hwf _ (mem_getD buf i h)
  · rw [List.getD_eq_default _ _ (by omega)]
    simp

theorem no_nl_take (s : Str) (h : '\n' ∉ s) (n : Nat) : '\n' ∉ s.take n :=
  fun hm => h (List.take_subset n s hm)

theorem no_nl_drop (s : Str) (h : '\n' ∉ s) (n : Nat) : '\n' ∉ s.drop n :=
  fun hm => h (List.drop_subset n s hm)

theorem no_nl_slice (s : Str) (h : '\n' ∉ s) (a b : Nat) : '\n' ∉ jsSlice s a b :=
  fun hm => h (List.take_subset _ _ (List.drop_subset _ _ hm))

theorem getD_set_self (l : List Str) (i : Nat) (x : Str) (h : i < l.length) :
    (l.set i x).getD i [] = x := by
  induction l generalizing i with
  | nil => simp at h
  | cons y ys ih =>
    cases i with
    | zero => rfl
    | succ n => simpa using ih n (by simpa using h)

theorem take_getD_drop (buf : List Str) (i : Nat) (h : i < buf.length) :
    buf.take i ++ buf.getD i [] :: buf.drop (i + 1) = buf := by
  have hd := drop_eq_getD_cons buf i h
  have := List.take_append_drop i buf
  rw [hd] at this
  exact this

theorem insert_remove_roundtrip (buf : List Str) (p : TextPosition) (text : Str)
    (hl : p.line < buf.length) (ho : p.offset ≤ (buf.getD p.line []).length) :
    doChange (insertText buf p text).1
      { type := ChangeType.removeText, text := text, position := p } = buf := by
  have hla : ((buf.getD p.line []).take p.offset).length = p.offset := by
    rw [List.length_take]
    omega
  by_cases hnl : '\n' ∈ text
  · -- several segments
    obtain ⟨s0, rest, hsp⟩ : ∃ s0 rest, splitNl text = s0 :: rest := by
      cases h : splitNl text with
      | nil => exact absurd h (splitNl_ne_nil text)
      | cons a b => exact ⟨a, b, rfl⟩
    have hrest : rest ≠ [] := by
      intro hr
      rw [hr] at hsp
      have := joinNl_splitNl text
      rw [hsp] at this
      have hs0 : s0 = text := this
      have := splitNl_no_nl text s0 (by rw [hsp]; exact List.mem_cons_self _ _)
      rw [hs0] at this
      exact this hnl
    obtain ⟨mid, sl, hms⟩ : ∃ mid sl, rest = mid ++ [sl] :=
      ⟨rest.dropLast, rest.getLast hrest, (List.dropLast_append_getLast hrest).symm⟩
    rw [hms] at hsp
    have hins := insertText_multi buf p text s0 sl mid hsp
    have hbuf1 : (insertText buf p text).1 =
        buf.take p.line ++
          ((buf.getD p.line []).take p.offset ++ s0) ::
            (mid ++ (sl ++ (buf.getD p.line []).drop p.offset) ::
              buf.drop (p.line + 1)) := by
      rw [hins]
      simp
    rw [hbuf1]
    simp only [doChange]
    have hPlen : (buf.take p.line).length = p.line := by
      rw [List.length_take]
      omega
    have htext : text = s0 ++ '\n' :: joinNl (mid ++ [sl]) := by
      conv_lhs => rw [← joinNl_splitNl text]
      rw [hsp, joinNl_cons_of_ne _ _ (by simp)]
    have hget : (buf.take p.line ++
        ((buf.getD p.line []).take p.offset ++ s0) ::
          (mid ++ (sl ++ (buf.getD p.line []).drop p.offset) ::
            buf.drop (p.line + 1))).getD p.line [] =
        (buf.getD p.line []).take p.offset ++ s0 := by
      have h0 := getD_at_length (buf.take p.line)
        (mid ++ (sl ++ (buf.getD p.line []).drop p.offset) :: buf.drop (p.line + 1))
        ((buf.getD p.line []).take p.offset ++ s0)
      rwa [hPlen] at h0
    have hdrop : (buf.take p.line ++
        ((buf.getD p.line []).take p.offset ++ s0) ::
          (mid ++ (sl ++ (buf.getD p.line []).drop p.offset) ::
            buf.drop (p.line + 1))).drop (p.line + 1) =
        mid ++ (sl ++ (buf.getD p.line []).drop p.offset) ::
          buf.drop (p.line + 1) := by
      have h0 := drop_at_length (buf.take p.line)
        (mid ++ (sl ++ (buf.getD p.line []).drop p.offset) :: buf.drop (p.line + 1))
        ((buf.getD p.line []).take p.offset ++ s0)
      rwa [hPlen] at h0
    have hcur_drop : ((buf.getD p.line []).take p.offset ++ s0).drop p.offset = s0 := by
      have h0 := List.drop_left ((buf.getD p.line []).take p.offset) s0
      rwa [hla] at h0
    have hlt_take : (sl ++ (buf.getD p.line []).drop p.offset).take sl.length = sl :=
      List.take_left _ _
    have hdelta : text.length =
        (((buf.getD p.line []).take p.offset ++ s0).drop p.offset ++
          '\n' :: joinNl (mid ++
            [(sl ++ (buf.getD p.line []).drop p.offset).take sl.length])).length := by
      rw [hcur_drop, hlt_take, htext]
    have hmv : movePosition
        (buf.take p.line ++
          ((buf.getD p.line []).take p.offset ++ s0) ::
            (mid ++ (sl ++ (buf.getD p.line []).drop p.offset) ::
              buf.drop (p.line + 1))) p (text.length : Int) =
        ⟨p.line + (mid.length + 1), sl.length⟩ := by
      simp only [movePosition, if_pos (Int.natCast_nonneg _), Int.toNat_natCast,
        hget, hdrop]
      rw [hdelta, moveFwdGo_text (sl ++ (buf.getD p.line []).drop p.offset)
        sl.length (by simp) mid p.line ((buf.getD p.line []).take p.offset ++ s0)
        p.offset (buf.drop (p.line + 1))]
    rw [hmv]
    have hrm := removeText_decomp p ⟨p.line + (mid.length + 1), sl.length⟩
      (buf.take p.line) mid ((buf.getD p.line []).take p.offset ++ s0)
      (sl ++ (buf.getD p.line []).drop p.offset) (buf.drop (p.line + 1))
      (by rw [hPlen])
      (by show p.line + (mid.length + 1) = (buf.take p.line).length + mid.length + 1
          rw [hPlen]
          omega)
    rw [hrm]
    have htk : ((buf.getD p.line []).take p.offset ++ s0).take p.offset =
        (buf.getD p.line []).take p.offset := by
      have h0 := List.take_left ((buf.getD p.line []).take p.offset) s0
      rwa [hla] at h0
    have hdr : (sl ++ (buf.getD p.line []).drop p.offset).drop sl.length =
        (buf.getD p.line []).drop p.offset := List.drop_left _ _
    rw [htk, hdr, List.take_append_drop]
    exact take_getD_drop buf p.line hl
  · -- single segment
    have hbuf1 : (insertText buf p text).1 =
        buf.set p.line ((buf.getD p.line []).take p.offset ++ text ++
          (buf.getD p.line []).drop p.offset) := by
      rw [insertText_single buf p text hnl]
    rw [hbuf1]
    simp only [doChange]
    have hget : (buf.set p.line ((buf.getD p.line []).take p.offset ++ text ++
        (buf.getD p.line []).drop p.offset)).getD p.line [] =
        (buf.getD p.line []).take p.offset ++ text ++
          (buf.getD p.line []).drop p.offset := getD_set_self _ _ _ hl
    have hmv : movePosition (buf.set p.line ((buf.getD p.line []).take p.offset ++
        text ++ (buf.getD p.line []).drop p.offset)) p (text.length : Int) =
        ⟨p.line, p.offset + text.length⟩ := by
      simp only [movePosition, if_pos (Int.natCast_nonneg _), Int.toNat_natCast, hget]
      rw [moveFwdGo_within _ _ _ _ _
        (by simp only [List.length_append, hla]; omega)]
    rw [hmv]
    rw [removeText_line _ p ⟨p.line, p.offset + text.length⟩ rfl, hget]
    have htk : ((buf.getD p.line []).take p.offset ++ text ++
        (buf.getD p.line []).drop p.offset).take p.offset =
        (buf.getD p.line []).take p.offset := by
      have h0 := List.take_left ((buf.getD p.line []).take p.offset)
        (text ++ (buf.getD p.line []).drop p.offset)
      rw [hla] at h0
      rwa [← List.append_assoc] at h0
    have hdr : ((buf.getD p.line []).take p.offset ++ text ++
        (buf.getD p.line []).drop p.offset).drop (p.offset + text.length) =
        (buf.getD p.line []).drop p.offset := by
      have hlen2 : ((buf.getD p.line []).take p.offset ++ text).length =
          p.offset + text.length := by
        rw [List.length_append, hla]
      rw [← hlen2]
      exact List.drop_left _ _
    rw [htk, hdr, List.set_set, List.take_append_drop]
    exact set_getD_self buf p.line

theorem remove_insert_roundtrip (buf : List Str) (f t : TextPosition)
    (hwf : WfBuf buf) (hf : InBoundsPos buf f) (ht : InBoundsPos buf t)
    (hle : posLe f t) :
    (insertText (removeText buf f t) f (getText buf f t)).1 = buf := by
  obtain ⟨hfl, hfo⟩ := hf
  obtain ⟨htl, hto⟩ := ht
  rcases hle with hlt | ⟨heq, hol⟩
  · -- lines strictly apart
    have hwf_cur : '\n' ∉ buf.getD f.line [] := wf_getD buf hwf f.line
    have hwf_lt : '\n' ∉ buf.getD t.line [] := wf_getD buf hwf t.line
    have hwf_mids : ∀ m ∈ (buf.drop (f.line + 1)).take (t.line - f.line - 1),
        '\n' ∉ m := fun m hm =>
      hwf m (List.drop_subset _ _ (List.take_subset _ _ hm))
    have hPlen : (buf.take f.line).length = f.line := by
      rw [List.length_take]
      omega
    have hMlen : ((buf.drop (f.line + 1)).take (t.line - f.line - 1)).length =
        t.line - f.line - 1 := by
      rw [List.length_take, List.length_drop]
      omega
    have hculen : ((buf.getD f.line []).take f.offset).length = f.offset := by
      rw [List.length_take]
      omega
    have hdec := buf_decomp buf f.line t.line hlt htl
    have hgt := getText_decomp f t (buf.take f.line)
      ((buf.drop (f.line + 1)).take (t.line - f.line - 1)) (buf.getD f.line [])
      (buf.getD t.line []) (buf.drop (t.line + 1)) (by rw [hPlen])
      (by rw [hPlen, hMlen]; omega)
    have hrm := removeText_decomp f t (buf.take f.line)
      ((buf.drop (f.line + 1)).take (t.line - f.line - 1)) (buf.getD f.line [])
      (buf.getD t.line []) (buf.drop (t.line + 1)) (by rw [hPlen])
      (by rw [hPlen, hMlen]; omega)
    rw [← hdec] at hgt hrm
    rw [hgt, hrm]
    have hsplit : splitNl ((buf.getD f.line []).drop f.offset ++
        '\n' :: joinNl ((buf.drop (f.line + 1)).take (t.line - f.line - 1) ++
          [(buf.getD t.line []).take t.offset])) =
        ((buf.getD f.line []).drop f.offset) ::
          ((buf.drop (f.line + 1)).take (t.line - f.line - 1) ++
            [(buf.getD t.line []).take t.offset]) := by
      rw [← joinNl_cons_of_ne _ _ (by simp)]
      refine splitNl_joinNl _ (by simp) ?_
      intro q hq
      rcases List.mem_cons.mp hq with rfl | hq
      · exact no_nl_drop _ hwf_cur _
      · rcases List.mem_append.mp hq with hq | hq
        · exact hwf_mids q hq
        · rcases List.mem_singleton.mp hq with rfl
          exact no_nl_take _ hwf_lt _
    have hins := insertText_multi
      (buf.take f.line ++
        ((buf.getD f.line []).take f.offset ++ (buf.getD t.line []).drop t.offset) ::
        buf.drop (t.line + 1)) f
      ((buf.getD f.line []).drop f.offset ++
        '\n' :: joinNl ((buf.drop (f.line + 1)).take (t.line - f.line - 1) ++
          [(buf.getD t.line []).take t.offset]))
      ((buf.getD f.line []).drop f.offset)
      ((buf.getD t.line []).take t.offset)
      ((buf.drop (f.line + 1)).take (t.line - f.line - 1)) hsplit
    rw [hins]
    have hget2 : (buf.take f.line ++
        ((buf.getD f.line []).take f.offset ++ (buf.getD t.line []).drop t.offset) ::
        buf.drop (t.line + 1)).getD f.line [] =
        (buf.getD f.line []).take f.offset ++ (buf.getD t.line []).drop t.offset := by
      have h0 := getD_at_length (buf.take f.line) (buf.drop (t.line + 1))
        ((buf.getD f.line []).take f.offset ++ (buf.getD t.line []).drop t.offset)
      rwa [hPlen] at h0
    have htk2 : ((buf.getD f.line []).take f.offset ++
        (buf.getD t.line []).drop t.offset).take f.offset =
        (buf.getD f.line []).take f.offset := by
      have h0 := List.take_left ((buf.getD f.line []).take f.offset)
        ((buf.getD t.line []).drop t.offset)
      rwa [hculen] at h0
    have hdr2 : ((buf.getD f.line []).take f.offset ++
        (buf.getD t.line []).drop t.offset).drop f.offset =
        (buf.getD t.line []).drop t.offset := by
      have h0 := List.drop_left ((buf.getD f.line []).take f.offset)
        ((buf.getD t.line []).drop t.offset)
      rwa [hculen] at h0
    have htake3 : (buf.take f.line ++
        ((buf.getD f.line []).take f.offset ++ (buf.getD t.line []).drop t.offset) ::
        buf.drop (t.line + 1)).take f.line = buf.take f.line := by
      have h0 := take_at_length (buf.take f.line) (buf.drop (t.line + 1))
        ((buf.getD f.line []).take f.offset ++ (buf.getD t.line []).drop t.offset)
      rwa [hPlen] at h0
    have hdrop3 : (buf.take f.line ++
        ((buf.getD f.line []).take f.offset ++ (buf.getD t.line []).drop t.offset) ::
        buf.drop (t.line + 1)).drop (f.line + 1) = buf.drop (t.line + 1) := by
      have h0 := drop_at_length (buf.take f.line) (buf.drop (t.line + 1))
        ((buf.getD f.line []).take f.offset ++ (buf.getD t.line []).drop t.offset)
      rwa [hPlen] at h0
    show (buf.take f.line ++
        ((buf.getD f.line []).take f.offset ++ (buf.getD t.line []).drop t.offset) ::
        buf.drop (t.line + 1)).take f.line ++
      (((buf.take f.line ++
          ((buf.getD f.line []).take f.offset ++ (buf.getD t.line []).drop t.offset) ::
          buf.drop (t.line + 1)).getD f.line []).take f.offset ++
        (buf.getD f.line []).drop f.offset) ::
        ((buf.drop (f.line + 1)).take (t.line - f.line - 1) ++
          [(buf.getD t.line []).take t.offset ++
            ((buf.take f.line ++
              ((buf.getD f.line []).take f.offset ++
                (buf.getD t.line []).drop t.offset) ::
              buf.drop (t.line + 1)).getD f.line []).drop f.offset]) ++
      (buf.take f.line ++
        ((buf.getD f.line []).take f.offset ++ (buf.getD t.line []).drop t.offset) ::
        buf.drop (t.line + 1)).drop (f.line + 1) = buf
    rw [hget2, htk2, hdr2, htake3, hdrop3, List.take_append_drop,
      List.take_append_drop]
    conv_rhs => rw [hdec]
    simp
  · -- same line
    have hwf_l : '\n' ∉ buf.getD f.line [] := wf_getD buf hwf f.line
    have hnl : '\n' ∉ jsSlice (buf.getD f.line []) f.offset t.offset :=
      no_nl_slice _ hwf_l _ _
    rw [getText_line buf f t heq, removeText_line buf f t heq.symm]
    rw [insertText_single _ _ _ hnl]
    have hset_len : f.line < (buf.set f.line ((buf.getD f.line []).take f.offset ++
        (buf.getD t.line []).drop t.offset)).length := by
      rw [List.length_set]
      omega
    have hget : (buf.set f.line ((buf.getD f.line []).take f.offset ++
        (buf.getD t.line []).drop t.offset)).getD f.line [] =
        (buf.getD f.line []).take f.offset ++ (buf.getD t.line []).drop t.offset :=
      getD_set_self _ _ _ hfl
    rw [hget]
    have hculen : ((buf.getD f.line []).take f.offset).length = f.offset := by
      rw [List.length_take]
      omega
    have htk : ((buf.getD f.line []).take f.offset ++
        (buf.getD t.line []).drop t.offset).take f.offset =
        (buf.getD f.line []).take f.offset := by
      have h0 := List.take_left ((buf.getD f.line []).take f.offset)
        ((buf.getD t.line []).drop t.offset)
      rwa [hculen] at h0
    have hdr : ((buf.getD f.line []).take f.offset ++
        (buf.getD t.line []).drop t.offset).drop f.offset =
        (buf.getD t.line []).drop t.offset := by
      have h0 := List.drop_left ((buf.getD f.line []).take f.offset)
        ((buf.getD t.line []).drop t.offset)
      rwa [hculen] at h0
    rw [htk, hdr]
    have h1 : ((buf.getD f.line []).take t.offset).take f.offset =
        (buf.getD f.line []).take f.offset := by
      rw [List.take_take]
      congr 1
      omega
    have h2 := List.take_append_drop f.offset ((buf.getD f.line []).take t.offset)
    rw [h1] at h2
    have hjs : (buf.getD f.line []).take f.offset ++
        jsSlice (buf.getD f.line []) f.offset t.offset =
        (buf.getD f.line []).take t.offset := h2
    have hback : (buf.getD f.line []).take f.offset ++
        jsSlice (buf.getD f.line []) f.offset t.offset ++
        (buf.getD t.line []).drop t.offset = buf.getD f.line [] := by
      rw [hjs, ← heq, List.take_append_drop]
    rw [hback, List.set_set]
    exact set_getD_self buf f.line

theorem doChange_roundtrip (buf : List Str) (c : Change) (hwf : WfBuf buf)
    (hp : Producible buf c) :
    doChange (doChange buf c) (invertChange c) = buf := by
  obtain ⟨⟨hl, ho⟩, hkind⟩ := hp
  cases hc : c.type with
  | insertText =>
    have h1 : doChange buf c = (insertText buf c.position c.text).1 := by
      simp [doChange, hc]
    have h2 : invertChange c =
        { type := ChangeType.removeText, text := c.text, position := c.position } := by
      simp [invertChange, hc]
    rw [h1, h2]
    exact insert_remove_roundtrip buf c.position c.text hl ho
  | removeText =>
    rcases hkind with hk | ⟨tp, htp, hle, htext⟩
    · rw [hc] at hk
      exact absurd hk (by simp)
    · have h1 : doChange buf c =
          removeText buf c.position (movePosition buf c.position
            (c.text.length : Int)) := by
        simp [doChange, hc]
      have hmv : movePosition buf c.position (c.text.length : Int) = tp := by
        rw [htext]
        exact movePosition_getText buf c.position tp ⟨hl, ho⟩ htp hle
      have h2 : invertChange c =
          { type := ChangeType.insertText, text := c.text, position := c.position } := by
        simp [invertChange, hc]
      rw [h1, hmv, h2]
      show (insertText (removeText buf c.position tp) c.position c.text).1 = buf
      rw [htext]
      exact remove_insert_roundtrip buf c.position tp hwf ⟨hl, ho⟩ htp hle

/-! ### Well-formedness is preserved by `doChange` -/

theorem wf_removeLoop (fl : Nat) :
    ∀ (k : Nat) (buf : List Str), WfBuf buf → WfBuf (removeLoop buf fl k) := by
  intro k
  induction k with
  | zero => intro buf h; exact h
  | succ n ih =>
    intro buf h
    exact ih _ (fun l hl => h l (List.eraseIdx_subset _ _ hl))

theorem wf_removeText (buf : List Str) (f t : TextPosition) (hwf : WfBuf buf) :
    WfBuf (removeText buf f t) := by
  simp only [removeText]
  apply wf_removeLoop
  intro l hl
  rcases List.mem_or_eq_of_mem_set hl with h | h
  · exact hwf l h
  · subst h
    intro hm
    rcases List.mem_append.mp hm with hm | hm
    · exact no_nl_take _ (wf_getD buf hwf f.line) _ hm
    · exact no_nl_drop _ (wf_getD buf hwf t.line) _ hm

theorem mem_midLast (tail : Str) :
    ∀ (segs : List Str) (x : Str), x ∈ midLast tail segs →
    ∃ s ∈ segs, x = s ∨ x = s ++ tail := by
  intro segs
  induction segs with
  | nil => intro x hx; simp [midLast] at hx
  | cons s rest ih =>
    intro x hx
    cases rest with
    | nil =>
      rcases List.mem_singleton.mp hx with rfl
      exact ⟨s, List.mem_cons_self _ _, Or.inr rfl⟩
    | cons q qs =>
      rcases List.mem_cons.mp hx with rfl | hx
      · exact ⟨x, List.mem_cons_self _ _, Or.inl rfl⟩
      · obtain ⟨s2, hs2, hor⟩ := ih x hx
        exact ⟨s2, List.mem_cons.mpr (Or.inr hs2), hor⟩

theorem wf_insertText (buf : List Str) (p : TextPosition) (text : Str)
    (hwf : WfBuf buf) : WfBuf ((insertText buf p text).1) := by
  have hseg := splitNl_no_nl text
  have hwf_line := wf_getD buf hwf p.line
  cases hsp : splitNl text with
  | nil => simp [insertText, hsp]; exact hwf
  | cons s0 rest =>
    cases rest with
    | nil =>
      simp only [insertText, hsp]
      intro l hl
      rcases List.mem_or_eq_of_mem_set hl with h | h
      · exact hwf l h
      · subst h
        intro hm
        rcases List.mem_append.mp hm with hm | hm
        · rcases List.mem_append.mp hm with hm | hm
          · exact no_nl_take _ hwf_line _ hm
          · exact hseg s0 (by rw [hsp]; exact List.mem_cons_self _ _) hm
        · exact no_nl_drop _ hwf_line _ hm
    | cons q qs =>
      simp only [insertText, hsp]
      intro l hl
      rcases List.mem_append.mp hl with hl | hl
      · rcases List.mem_append.mp hl with hl | hl
        · exact hwf l (List.take_subset _ _ hl)
        · rcases List.mem_cons.mp hl with rfl | hl
          · intro hm
            rcases List.mem_append.mp hm with hm | hm
            · exact no_nl_take _ hwf_line _ hm
            · exact hseg s0 (by rw [hsp]; exact List.mem_cons_self _ _) hm
          · obtain ⟨s2, hs2, hor⟩ := mem_midLast _ _ _ hl
            have hs2nl : '\n' ∉ s2 := hseg s2
              (by rw [hsp]; exact List.mem_cons.mpr (Or.inr hs2))
            rcases hor with rfl | rfl
            · exact hs2nl
            · intro hm
              rcases List.mem_append.mp hm with hm | hm
              · exact hs2nl hm
              · exact no_nl_drop _ hwf_line _ hm
      · exact hwf l (List.drop_subset _ _ hl)

theorem wf_doChange (buf : List Str) (c : Change) (hwf : WfBuf buf) :
    WfBuf (doChange buf c) := by
  cases hc : c.type with
  | insertText =>
    have h1 : doChange buf c = (insertText buf c.position c.text).1 := by
      simp [doChange, hc]
    rw [h1]
    exact wf_insertText buf c.position c.text hwf
  | removeText =>
    have h1 : doChange buf c =
        removeText buf c.position (movePosition buf c.position
          (c.text.length : Int)) := by
      simp [doChange, hc]
    rw [h1]
    exact wf_removeText _ _ _ hwf

theorem traces_wf (buf : List Str) (cs : List Change) (h : Traces buf cs) :
    WfBuf buf := by
  induction h with
  | nil b hwf => exact hwf
  | step b cs c htr hp ih => exact wf_doChange b c ih

/-! ### Undo/redo as state transformations -/

theorem undo_step (buf : List Str) (c : Change) (past F : List Change) :
    undo ⟨buf, ⟨c :: past, F⟩⟩ =
      ⟨doChange buf (invertChange c), ⟨past, c :: F⟩⟩ := by
  simp [undo, History.canUndo, History.undo]

theorem redo_step (buf : List Str) (c : Change) (past F : List Change) :
    redo ⟨buf, ⟨past, c :: F⟩⟩ = ⟨doChange buf c, ⟨c :: past, F⟩⟩ := by
  simp [redo, History.canRedo, History.redo]

theorem redoN_succ_outer : ∀ (n : Nat) (s : EditorState),
    redoN (n + 1) s = redo (redoN n s) := by
  intro n
  induction n with
  | zero => intro s; rfl
  | succ m ih =>
    intro s
    show redoN (m + 1) (redo s) = redo (redoN (m + 1) s)
    rw [ih (redo s)]
    rfl

theorem undo_redo_cycle (buf : List Str) (cs : List Change) (h : Traces buf cs) :
    ∀ F : List Change,
    redoN cs.length (undoN cs.length ⟨buf, ⟨cs, F⟩⟩) = ⟨buf, ⟨cs, F⟩⟩ := by
  induction h with
  | nil b hwf => intro F; rfl
  | step b cs c htr hp ih =>
    intro F
    show redoN (cs.length + 1) (undoN (cs.length + 1) ⟨doChange b c, ⟨c :: cs, F⟩⟩) = _
    have h1 : undoN (cs.length + 1) ⟨doChange b c, ⟨c :: cs, F⟩⟩ =
        undoN cs.length ⟨b, ⟨cs, c :: F⟩⟩ := by
      show undoN cs.length (undo ⟨doChange b c, ⟨c :: cs, F⟩⟩) = _
      rw [undo_step, doChange_roundtrip b c (traces_wf b cs htr) hp]
    rw [h1, redoN_succ_outer, ih (c :: F), redo_step]

/-! ### `movePosition` stays in bounds -/

theorem moveBwdGo_cons (offset absDelta : Nat) (l : Str) (prev : List Str)
    (lineNr : Nat) :
    moveBwdGo offset absDelta (l :: prev) lineNr =
      if absDelta - min offset absDelta = 0 then
        (lineNr, offset - min offset absDelta)
      else
        moveBwdGo l.length (absDelta - min offset absDelta - 1) prev
          (lineNr - 1) := rfl

theorem moveBwdGo_nil (offset absDelta lineNr : Nat) :
    moveBwdGo offset absDelta [] lineNr =
      (lineNr, offset - min offset absDelta) := by
  show (if absDelta - min offset absDelta = 0 then
      (lineNr, offset - min offset absDelta)
    else (lineNr, offset - min offset absDelta)) = _
  simp

theorem take_succ_getD (l : List Str) (i : Nat) (h : i < l.length) :
    l.take (i + 1) = l.take i ++ [l.getD i []] := by
  induction l generalizing i with
  | nil => simp at h
  | cons x xs ih =>
    cases i with
    | zero => rfl
    | succ n =>
      have := ih n (by simpa using h)
      show x :: xs.take (n + 1) = (x :: xs.take n) ++ [xs.getD n []]
      rw [this]
      rfl

theorem moveFwdGo_inBounds (buf : List Str) :
    ∀ (rest : List Str) (lineNr offset absDelta : Nat),
    lineNr < buf.length → offset ≤ (buf.getD lineNr []).length →
    rest = buf.drop (lineNr + 1) →
    (moveFwdGo offset absDelta (buf.getD lineNr []).length rest lineNr).1 <
      buf.length ∧
    (moveFwdGo offset absDelta (buf.getD lineNr []).length rest lineNr).2 ≤
      (buf.getD
        (moveFwdGo offset absDelta (buf.getD lineNr []).length rest lineNr).1
        []).length := by
  intro rest
  induction rest with
  | nil =>
    intro lineNr offset absDelta hl ho _
    rw [moveFwdGo_nil]
    refine ⟨hl, ?_⟩
    simp only [Prod.fst, Prod.snd]
    omega
  | cons l rest ih =>
    intro lineNr offset absDelta hl ho hrest
    rw [moveFwdGo_cons]
    by_cases hz : absDelta - min ((buf.getD lineNr []).length - offset) absDelta = 0
    · rw [if_pos hz]
      refine ⟨hl, ?_⟩
      simp only [Prod.fst, Prod.snd]
      omega
    · rw [if_neg hz]
      have hlen1 : lineNr + 1 < buf.length := by
        have : (buf.drop (lineNr + 1)).length = buf.length - (lineNr + 1) :=
          List.length_drop _ _
        rw [← hrest] at this
        simp at this
        omega
      have hdec := drop_eq_getD_cons buf (lineNr + 1) hlen1
      rw [← hrest] at hdec
      have hl2 : l = buf.getD (lineNr + 1) [] := by
        injection hdec with h1 h2
      have hr2 : rest = buf.drop (lineNr + 2) := by
        injection hdec with h1 h2
      rw [hl2]
      exact ih (lineNr + 1) 0 _ hlen1 (by omega) hr2

theorem moveBwdGo_inBounds (buf : List Str) :
    ∀ (prev : List Str) (lineNr offset absDelta : Nat),
    lineNr < buf.length → offset ≤ (buf.getD lineNr []).length →
    prev = (buf.take lineNr).reverse →
    (moveBwdGo offset absDelta prev lineNr).1 < buf.length ∧
    (moveBwdGo offset absDelta prev lineNr).2 ≤
      (buf.getD (moveBwdGo offset absDelta prev lineNr).1 []).length := by
  intro prev
  induction prev with
  | nil =>
    intro lineNr offset absDelta hl ho _
    rw [moveBwdGo_nil]
    refine ⟨hl, ?_⟩
    simp only [Prod.fst, Prod.snd]
    omega
  | cons l prev ih =>
    intro lineNr offset absDelta hl ho hprev
    rw [moveBwdGo_cons]
    by_cases hz : absDelta - min offset absDelta = 0
    · rw [if_pos hz]
      refine ⟨hl, ?_⟩
      simp only [Prod.fst, Prod.snd]
      omega
    · rw [if_neg hz]
      have hpos : 0 < lineNr := by
        by_contra hc
        have h0 : lineNr = 0 := by omega
        rw [h0] at hprev
        simp at hprev
      have hlt : lineNr - 1 < buf.length := by omega
      have htk : buf.take lineNr = buf.take (lineNr - 1) ++
          [buf.getD (lineNr - 1) []] := by
        have := take_succ_getD buf (lineNr - 1) (by omega)
        rw [(by omega : lineNr - 1 + 1 = lineNr)] at this
        exact this
      rw [htk] at hprev
      simp only [List.reverse_append, List.reverse_cons, List.reverse_nil,
        List.nil_append, List.singleton_append] at hprev
      have hl2 : l = buf.getD (lineNr - 1) [] := by
        injection hprev with h1 h2
      have hp2 : prev = (buf.take (lineNr - 1)).reverse := by
        injection hprev with h1 h2
      rw [hl2]
      exact ih (lineNr - 1) _ _ hlt (by omega) hp2

theorem movePosition_inBounds (buf : List Str) (p : TextPosition) (delta : Int)
    (h : InBoundsPos buf p) : InBoundsPos buf (movePosition buf p delta) := by
  obtain ⟨hl, ho⟩ := h
  simp only [movePosition]
  by_cases hd : 0 ≤ delta
  · rw [if_pos hd]
    exact moveFwdGo_inBounds buf (buf.drop (p.line + 1)) p.line p.offset
      delta.toNat hl ho rfl
  · rw [if_neg hd]
    exact moveBwdGo_inBounds buf ((buf.take p.line).reverse) p.line p.offset
      (-delta).toNat hl ho rfl

/-! ### The two implementations agree -/

theorem te_moveFwdGo_cons (offset absDelta curLen : Nat) (l : Str)
    (rest : List Str) (lineNr : Nat) :
    TextEditor.moveFwdGo offset absDelta curLen (l :: rest) lineNr =
      if absDelta - min (curLen - offset) absDelta = 0 then
        (lineNr, offset + min (curLen - offset) absDelta)
      else
        TextEditor.moveFwdGo 0 (absDelta - min (curLen - offset) absDelta - 1)
          l.length rest (lineNr + 1) := rfl

theorem te_moveFwdGo_eq : ∀ (rest : List Str) (offset absDelta curLen lineNr : Nat),
    TextEditor.moveFwdGo offset absDelta curLen rest lineNr =
      moveFwdGo offset absDelta curLen rest lineNr := by
  intro rest
  induction rest with
  | nil => intro o a c n; rfl
  | cons l rest ih =>
    intro o a c n
    rw [te_moveFwdGo_cons, moveFwdGo_cons]
    by_cases hz : a - min (c - o) a = 0
    · rw [if_pos hz, if_pos hz]
    · rw [if_neg hz, if_neg hz, ih]

theorem te_moveBwdGo_cons (offset absDelta : Nat) (l : Str) (prev : List Str)
    (lineNr : Nat) :
    TextEditor.moveBwdGo offset absDelta (l :: prev) lineNr =
      if absDelta - min offset absDelta = 0 then
        (lineNr, offset - min offset absDelta)
      else
        TextEditor.moveBwdGo l.length (absDelta - min offset absDelta - 1) prev
          (lineNr - 1) := rfl

theorem te_moveBwdGo_eq : ∀ (prev : List Str) (offset absDelta lineNr : Nat),
    TextEditor.moveBwdGo offset absDelta prev lineNr =
      moveBwdGo offset absDelta prev lineNr := by
  intro prev
  induction prev with
  | nil => intro o a n; rfl
  | cons l prev ih =>
    intro o a n
    rw [te_moveBwdGo_cons, moveBwdGo_cons]
    by_cases hz : a - min o a = 0
    · rw [if_pos hz, if_pos hz]
    · rw [if_neg hz, if_neg hz, ih]

theorem te_movePosition_eq (buf : List Str) (p : TextPosition) (delta : Int) :
    TextEditor.movePosition buf p delta = movePosition buf p delta := by
  simp only [TextEditor.movePosition, movePosition, te_moveFwdGo_eq, te_moveBwdGo_eq]

theorem te_rowPiece_eq (buf : List Str) (f t : TextPosition) (i : Nat) :
    TextEditor.rowPiece buf f t i = rowPiece buf f t i := rfl

theorem te_getTextGo_eq : ∀ (count : Nat) (buf : List Str) (f t : TextPosition)
    (lineNr : Nat),
    TextEditor.getTextGo buf f t lineNr count = getTextGo buf f t lineNr count := by
  intro count
  induction count with
  | zero => intro buf f t lineNr; rfl
  | succ n ih =>
    intro buf f t lineNr
    show (if f.line < lineNr then ['\n'] else []) ++
        TextEditor.rowPiece buf f t lineNr ++
        TextEditor.getTextGo buf f t (lineNr + 1) n =
      (if f.line < lineNr then ['\n'] else []) ++ rowPiece buf f t lineNr ++
        getTextGo buf f t (lineNr + 1) n
    rw [ih, te_rowPiece_eq]

theorem te_getText_eq (buf : List Str) (f t : TextPosition) :
    TextEditor.getText buf f t = getText buf f t := by
  simp only [TextEditor.getText, getText, te_getTextGo_eq]

theorem te_midLast_eq : ∀ (segs : List Str) (tail : Str),
    TextEditor.midLast tail segs = midLast tail segs := by
  intro segs
  induction segs with
  | nil => intro tail; rfl
  | cons s rest ih =>
    intro tail
    cases rest with
    | nil => rfl
    | cons q qs =>
      show s :: TextEditor.midLast tail (q :: qs) = s :: midLast tail (q :: qs)
      rw [ih]

theorem te_insertText_eq (buf : List Str) (p : TextPosition) (text : Str) :
    TextEditor.insertText buf p text = insertText buf p text := by
  cases hsp : splitNl text with
  | nil => simp [TextEditor.insertText, insertText, hsp]
  | cons s0 rest =>
    cases rest with
    | nil => simp [TextEditor.insertText, insertText, hsp]
    | cons q qs => simp [TextEditor.insertText, insertText, hsp, te_midLast_eq]

theorem te_removeLoop_eq : ∀ (k : Nat) (buf : List Str) (fl : Nat),
    TextEditor.removeLoop buf fl k = removeLoop buf fl k := by
  intro k
  induction k with
  | zero => intro buf fl; rfl
  | succ n ih =>
    intro buf fl
    show TextEditor.removeLoop (buf.eraseIdx (fl + 1)) fl n =
      removeLoop (buf.eraseIdx (fl + 1)) fl n
    exact ih _ _

theorem te_removeText_eq (buf : List Str) (f t : TextPosition) :
    TextEditor.removeText buf f t = removeText buf f t := by
  simp only [TextEditor.removeText, removeText, te_removeLoop_eq]

theorem te_invertChange_eq (c : Change) :
    TextEditor.invertChange c = invertChange c := by
  cases hc : c.type <;> simp [TextEditor.invertChange, invertChange, hc]

theorem te_doChange_eq (buf : List Str) (c : Change) :
    TextEditor.doChange buf c = doChange buf c := by
  cases hc : c.type <;>
    simp [TextEditor.doChange, doChange, hc, te_insertText_eq, te_movePosition_eq,
      te_removeText_eq]

theorem te_undo_eq (s : EditorState) : TextEditor.undo s = undo s := by
  obtain ⟨buf, past, fut⟩ := s
  cases past with
  | nil => rfl
  | cons c rest =>
    simp [TextEditor.undo, undo, TextEditor.historyCanUndo, History.canUndo,
      TextEditor.historyUndo, History.undo, te_doChange_eq, te_invertChange_eq]

theorem te_redo_eq (s : EditorState) : TextEditor.redo s = redo s := by
  obtain ⟨buf, past, fut⟩ := s
  cases fut with
  | nil => rfl
  | cons c rest =>
    simp [TextEditor.redo, redo, TextEditor.historyCanRedo, History.canRedo,
      TextEditor.historyRedo, History.redo, te_doChange_eq]

theorem te_removeTextAction_eq (s : EditorState) (sel : Selection)
    (mode : RemoveMode) :
    TextEditor.removeTextAction s sel mode = removeTextAction s sel mode := by
  simp only [TextEditor.removeTextAction, removeTextAction, te_movePosition_eq,
    te_getText_eq, te_removeText_eq, TextEditor.historyPush, History.push]

theorem te_insertTextAction_eq (s : EditorState) (sel : Selection) (text : Str) :
    TextEditor.insertTextAction s sel text = insertTextAction s sel text := by
  simp only [TextEditor.insertTextAction, insertTextAction,
    te_removeTextAction_eq, te_insertText_eq, TextEditor.historyPush, History.push]

/-! ### Remaining support lemmas -/

theorem set_eq_take_cons_drop (buf : List Str) (i : Nat) (x : Str)
    (h : i < buf.length) :
    buf.set i x = buf.take i ++ x :: buf.drop (i + 1) := by
  conv_lhs => rw [← take_getD_drop buf i h]
  have h0 := set_at_length (buf.take i) (buf.drop (i + 1)) (buf.getD i []) x
  have hPlen : (buf.take i).length = i := by
    rw [List.length_take]
    omega
  rw [hPlen] at h0
  exact h0

theorem jsIndexOf_not_mem : ∀ (l : List Nat) (x : Nat), x ∉ l →
    jsIndexOf l x = -1 := by
  intro l
  induction l with
  | nil => intro x _; rfl
  | cons y ys ih =>
    intro x h
    have hyx : ¬ y = x := fun he => h (by rw [he]; exact List.mem_cons_self _ _)
    have hx : x ∉ ys := fun hm => h (List.mem_cons.mpr (Or.inr hm))
    simp only [jsIndexOf, if_neg hyx, ih x hx]
    simp

theorem jsIndexOf_mem : ∀ (l : List Nat) (x : Nat), x ∈ l →
    jsIndexOf l x = ((l.indexOf x : Nat) : Int) := by
  intro l
  induction l with
  | nil => intro x h; simp at h
  | cons y ys ih =>
    intro x h
    by_cases hyx : y = x
    · subst hyx
      simp only [jsIndexOf, if_pos rfl, List.indexOf_cons_self]
      rfl
    · have hx : x ∈ ys := by
        rcases List.mem_cons.mp h with h1 | h1
        · exact absurd h1.symm hyx
        · exact h1
      have hr := ih x hx
      simp only [jsIndexOf, if_neg hyx]
      rw [hr, if_neg (by omega : ((ys.indexOf x : Nat) : Int) ≠ -1),
        List.indexOf_cons_ne ys hyx]
      omega

/-! ## The claims -/

/-- C1: round-trip of changes — for every well-formed buffer state and every
Change the Interpreter can produce (an Insert at an in-bounds position, or a
Remove carrying exactly the text of an in-order in-bounds range starting at
its position), applying the change via `doChange` and then applying
`invertChange` of it via `doChange` restores the buffer text exactly. -/
theorem C1_change_roundtrip (buf : List Str) (c : Change) (hwf : WfBuf buf)
    (hp : Producible buf c) :
    doChange (doChange buf c) (invertChange c) = buf :=
  doChange_roundtrip buf c hwf hp

/-- Witness for C1 at a concrete remove change on buffer `["hello"]`. -/
theorem C1_change_roundtrip_witness :
    doChange
      (doChange ["hello".toList]
        { type := ChangeType.removeText, text := "ell".toList,
          position := ⟨0, 1⟩ })
      (invertChange
        { type := ChangeType.removeText, text := "ell".toList,
          position := ⟨0, 1⟩ }) = ["hello".toList] :=
  C1_change_roundtrip ["hello".toList]
    { type := ChangeType.removeText, text := "ell".toList, position := ⟨0, 1⟩ }
    (by decide)
    ⟨by decide, Or.inr ⟨⟨0, 4⟩, by decide, by decide, by decide⟩⟩

/-- C2: undo/redo duality — for a history of N producible pushed changes
(`Traces buf cs` with N = `cs.length`, future empty as it is right after a
push), undoing N times and then redoing N times restores the editor state of
the Nth push exactly, and `canUndo`/`canRedo` are true exactly when the past
respectively future stack is non-empty, at every state whatsoever. -/
theorem C2_undo_redo_duality (buf : List Str) (cs : List Change)
    (h : Traces buf cs) :
    redoN cs.length (undoN cs.length ⟨buf, ⟨cs, []⟩⟩) = ⟨buf, ⟨cs, []⟩⟩ ∧
    ∀ s : EditorState, (s.history.canUndo = true ↔ s.history.past ≠ []) ∧
      (s.history.canRedo = true ↔ s.history.future ≠ []) :=
  ⟨undo_redo_cycle buf cs h [],
   fun s =>
    ⟨by simp [History.canUndo, List.length_pos],
     by simp [History.canRedo, List.length_pos]⟩⟩

/-- Witness for C2 with one pushed insert change on buffer `["ab"]`. -/
theorem C2_undo_redo_duality_witness :
    redoN 1 (undoN 1
      ⟨doChange ["ab".toList]
        { type := ChangeType.insertText, text := "x".toList, position := ⟨0, 0⟩ },
       ⟨[{ type := ChangeType.insertText,
           text := "x".toList,
           position := ⟨0, 0⟩ }], []⟩⟩) =
      ⟨doChange ["ab".toList]
        { type := ChangeType.insertText, text := "x".toList, position := ⟨0, 0⟩ },
       ⟨[{ type := ChangeType.insertText,
           text := "x".toList,
           position := ⟨0, 0⟩ }], []⟩⟩ ∧
    ∀ s : EditorState, (s.history.canUndo = true ↔ s.history.past ≠ []) ∧
      (s.history.canRedo = true ↔ s.history.future ≠ []) :=
  C2_undo_redo_duality
    (doChange ["ab".toList]
      { type := ChangeType.insertText, text := "x".toList, position := ⟨0, 0⟩ })
    [{ type := ChangeType.insertText, text := "x".toList, position := ⟨0, 0⟩ }]
    (Traces.step ["ab".toList] []
      { type := ChangeType.insertText, text := "x".toList, position := ⟨0, 0⟩ }
      (Traces.nil ["ab".toList] (by decide))
      ⟨by decide, Or.inl rfl⟩)

/-- C3: `insertText` postcondition — at an in-bounds position, a text without
line breaks is spliced into the current line and the returned position is on
the same line, `offset + len(text)` further; a text splitting into segments
`s0 :: mid ++ [sl]` (at least two segments) replaces the current line by
`head ++ s0` (`head` being the prefix up to `offset`), inserts the interior
segments as whole lines after it in order, makes the last new line
`sl ++ tail` (`tail` being the original suffix), and returns the last
inserted line's index with offset `len(sl)`. -/
theorem C3_insertText_spec (buf : List Str) (p : TextPosition) (t : Str)
    (hl : p.line < buf.length) (ho : p.offset ≤ (buf.getD p.line []).length) :
    ('\n' ∉ t →
      insertText buf p t =
        (buf.set p.line ((buf.getD p.line []).take p.offset ++ t ++
          (buf.getD p.line []).drop p.offset),
         ⟨p.line, p.offset + t.length⟩)) ∧
    (∀ (s0 sl : Str) (mid : List Str), splitNl t = s0 :: (mid ++ [sl]) →
      insertText buf p t =
        (buf.take p.line ++
          ((buf.getD p.line []).take p.offset ++ s0) ::
            (mid ++ [sl ++ (buf.getD p.line []).drop p.offset]) ++
          buf.drop (p.line + 1),
         ⟨p.line + (mid.length + 1), sl.length⟩)) :=
  ⟨fun hnl => insertText_single buf p t hnl,
   fun s0 sl mid hsp => insertText_multi buf p t s0 sl mid hsp⟩

/-- Witness for C3: inserting `"\n!!"` into `["hello","world"]` at `{0,5}`
yields `["hello","!!","world"]` and position `{1,2}`. -/
theorem C3_insertText_spec_witness :
    insertText ["hello".toList, "world".toList] ⟨0, 5⟩ "\n!!".toList =
      (["hello".toList, "!!".toList, "world".toList], ⟨1, 2⟩) := by
  have h := (C3_insertText_spec ["hello".toList, "world".toList] ⟨0, 5⟩
    "\n!!".toList (by decide) (by decide)).2 [] "!!".toList [] (by decide)
  rw [h]
  decide

/-- C4: `removeText` postcondition — for an in-bounds in-order pair the
`from` line becomes its old prefix up to `from.offset` followed by the old
`to` line's suffix from `to.offset`, the lines strictly after `from.line` up
to and including the old `to.line` disappear, all other lines are untouched
(the result is exactly `take ++ [merged] ++ drop`), and removing an empty
range leaves the buffer unchanged. -/
theorem C4_removeText_spec (buf : List Str) (f t : TextPosition)
    (hf : InBoundsPos buf f) (ht : InBoundsPos buf t) (hle : posLe f t) :
    removeText buf f t =
      buf.take f.line ++
        ((buf.getD f.line []).take f.offset ++
          (buf.getD t.line []).drop t.offset) :: buf.drop (t.line + 1) ∧
    (f = t → removeText buf f t = buf) := by
  obtain ⟨hfl, hfo⟩ := hf
  obtain ⟨htl, hto⟩ := ht
  refine ⟨?_, fun he => he ▸ removeText_self buf f⟩
  rcases hle with hlt | ⟨heq, _⟩
  · have hPlen : (buf.take f.line).length = f.line := by
      rw [List.length_take]
      omega
    have hMlen : ((buf.drop (f.line + 1)).take (t.line - f.line - 1)).length =
        t.line - f.line - 1 := by
      rw [List.length_take, List.length_drop]
      omega
    have hdec := buf_decomp buf f.line t.line hlt htl
    have hrm := removeText_decomp f t (buf.take f.line)
      ((buf.drop (f.line + 1)).take (t.line - f.line - 1)) (buf.getD f.line [])
      (buf.getD t.line []) (buf.drop (t.line + 1)) (by rw [hPlen])
      (by rw [hPlen, hMlen]; omega)
    rw [← hdec] at hrm
    exact hrm
  · rw [removeText_line buf f t heq.symm,
      set_eq_take_cons_drop buf f.line _ hfl, heq]

/-- Witness for C4: on buffer `["abc"]`, `removeText {0,1} {0,2}` yields
`["ac"]`. -/
theorem C4_removeText_spec_witness :
    removeText ["abc".toList] ⟨0, 1⟩ ⟨0, 2⟩ = ["ac".toList] := by
  have h := (C4_removeText_spec ["abc".toList] ⟨0, 1⟩ ⟨0, 2⟩ (by decide)
    (by decide) (by decide)).1
  rw [h]
  decide

/-- C5: type-over of a selection — on buffer `["hello"]` with the selection
spanning `{0,0}`–`{0,5}`, the insert-characters action first pushes a Remove
change for exactly the selected text and then pushes a separate Insert
change (two history entries, not one atomic replace), leaves the buffer as
`["hi"]`, one `undo` reverts only the insert leaving `[""]`, and a second
`undo` restores `["hello"]`. -/
theorem C5_type_over_selection :
    (insertTextAction ⟨["hello".toList], ⟨[], []⟩⟩ ⟨⟨0, 0⟩, ⟨0, 5⟩⟩
      "hi".toList).buffer = ["hi".toList] ∧
    (insertTextAction ⟨["hello".toList], ⟨[], []⟩⟩ ⟨⟨0, 0⟩, ⟨0, 5⟩⟩
      "hi".toList).history.past =
      [{ type := ChangeType.insertText, text := "hi".toList, position := ⟨0, 0⟩ },
       { type := ChangeType.removeText, text := "hello".toList,
         position := ⟨0, 0⟩ }] ∧
    (undo (insertTextAction ⟨["hello".toList], ⟨[], []⟩⟩ ⟨⟨0, 0⟩, ⟨0, 5⟩⟩
      "hi".toList)).buffer = [[]] ∧
    (undo (undo (insertTextAction ⟨["hello".toList], ⟨[], []⟩⟩ ⟨⟨0, 0⟩, ⟨0, 5⟩⟩
      "hi".toList))).buffer = ["hello".toList] := by
  decide

/-- C6 counterexample: `getText` called with `from > to` does not fail — it
returns a string (the empty string), both for reversed offsets on one line
and for reversed lines; the code has no error channel at all. -/
theorem C6_counterexample :
    getText ["abc".toList] ⟨0, 2⟩ ⟨0, 1⟩ = [] ∧
    getText ["abc".toList, "de".toList] ⟨1, 0⟩ ⟨0, 1⟩ = [] := by
  decide

/-- C6 (amended): `getText` performs no range validation; for every pair with
`from > to` in document order it silently returns the empty string instead of
failing with `InvalidRange`. -/
theorem C6_getText_invalid_range (buf : List Str) (f t : TextPosition)
    (h : t.line < f.line ∨ (f.line = t.line ∧ t.offset < f.offset)) :
    getText buf f t = [] := by
  rcases h with h | ⟨heq, hofs⟩
  · have hc : t.line + 1 - f.line = 0 := by omega
    rw [getText, hc]
    rfl
  · rw [getText_line buf f t heq]
    apply List.drop_eq_nil_of_le
    rw [List.length_take]
    omega

/-- Witness for the amended C6 on a reversed cross-line range. -/
theorem C6_getText_invalid_range_witness :
    getText ["abc".toList, "de".toList] ⟨1, 1⟩ ⟨0, 2⟩ = [] :=
  C6_getText_invalid_range ["abc".toList, "de".toList] ⟨1, 1⟩ ⟨0, 2⟩
    (by decide)

/-- C7 counterexample: resolving a container that is not a current line of
the buffer does not fail with `OutOfBounds` — `getPosition` returns the
sentinel pair `(-1, offset)` produced by `indexOf`. -/
theorem C7_counterexample :
    getPosition [5] ⟨"DIV", 7, 0⟩ 2 = (-1, 2) := by
  decide

/-- C7 (amended): `getPosition` never fails — for a container that is not a
current line it returns line index `-1` (with the given offset), and for a
container that is a current line it returns that line's first index in the
body together with the given offset. -/
theorem C7_getPosition_spec (bodyLines : List Nat) (container : DomNode)
    (offset : Int) :
    (containerLine container ∉ bodyLines →
      getPosition bodyLines container offset = (-1, offset)) ∧
    (containerLine container ∈ bodyLines →
      getPosition bodyLines container offset =
        (((bodyLines.indexOf (containerLine container) : Nat) : Int), offset)) := by
  constructor
  · intro h
    simp only [getPosition]
    rw [jsIndexOf_not_mem _ _ h]
  · intro h
    simp only [getPosition]
    rw [jsIndexOf_mem _ _ h]

/-- Witness for the amended C7: a text-node container inside the second line
resolves to index 1. -/
theorem C7_getPosition_spec_witness :
    getPosition [5, 9] ⟨"SPAN", 3, 9⟩ 4 = (1, 4) := by
  have h := (C7_getPosition_spec [5, 9] ⟨"SPAN", 3, 9⟩ 4).2 (by decide)
  rw [h]
  decide

/-- C8: `movePosition` clamping — starting from any in-bounds position and
for any integer delta, the walk consumes whole lines and one unit per line
break (the definitions `moveFwdGo`/`moveBwdGo` are read off the source loop)
and the returned position is again in bounds: it never moves past the buffer
start or end.  `movePosition` is a pure function of the buffer. -/
theorem C8_movePosition_clamped (buf : List Str) (p : TextPosition)
    (delta : Int) (h : InBoundsPos buf p) :
    InBoundsPos buf (movePosition buf p delta) :=
  movePosition_inBounds buf p delta h

/-- Witness for C8: overshooting forward from `{0,1}` on `["ab","cd"]` stays
in bounds. -/
theorem C8_movePosition_clamped_witness :
    InBoundsPos ["ab".toList, "cd".toList]
      (movePosition ["ab".toList, "cd".toList] ⟨0, 1⟩ 99) :=
  C8_movePosition_clamped ["ab".toList, "cd".toList] ⟨0, 1⟩ 99 (by decide)

/-- C9: branch discard on push — every `push` empties the future stack; after
pushes `[A, B]` (onto any starting history), `undo` returns `B` and makes
`canRedo` true, and pushing `C` afterwards clears the future so that a
subsequent `redo` is a no-op returning nothing. -/
theorem C9_push_discards_future (h0 : History) (A B C : Change) :
    (∀ (h : History) (c : Change), (h.push c).future = []) ∧
    ((h0.push A).push B).undo.1 = some B ∧
    ((h0.push A).push B).undo.2.canRedo = true ∧
    (((h0.push A).push B).undo.2.push C).redo =
      (none, ((h0.push A).push B).undo.2.push C) :=
  ⟨fun _ _ => rfl, rfl, rfl, rfl⟩

/-- C10: the class-based `TextEditor` implementation and the module-level
implementation perform identical buffer and history transformations: every
listed operation agrees pointwise on all inputs. -/
theorem C10_implementations_equivalent :
    (∀ (buf : List Str) (p : TextPosition) (delta : Int),
      TextEditor.movePosition buf p delta = movePosition buf p delta) ∧
    (∀ (buf : List Str) (f t : TextPosition),
      TextEditor.getText buf f t = getText buf f t) ∧
    (∀ (buf : List Str) (p : TextPosition) (text : Str),
      TextEditor.insertText buf p text = insertText buf p text) ∧
    (∀ (buf : List Str) (f t : TextPosition),
      TextEditor.removeText buf f t = removeText buf f t) ∧
    (∀ (buf : List Str) (c : Change),
      TextEditor.doChange buf c = doChange buf c) ∧
    (∀ c : Change, TextEditor.invertChange c = invertChange c) ∧
    (∀ s : EditorState, TextEditor.undo s = undo s) ∧
    (∀ s : EditorState, TextEditor.redo s = redo s) ∧
    (∀ (s : EditorState) (sel : Selection) (text : Str),
      TextEditor.insertTextAction s sel text = insertTextAction s sel text) ∧
    (∀ (s : EditorState) (sel : Selection) (mode : RemoveMode),
      TextEditor.removeTextAction s sel mode = removeTextAction s sel mode) ∧
    (∀ (h : History) (c : Change),
      TextEditor.historyPush h c = History.push h c) ∧
    (∀ h : History, TextEditor.historyCanUndo h = History.canUndo h) ∧
    (∀ h : History, TextEditor.historyCanRedo h = History.canRedo h) ∧
    (∀ h : History, TextEditor.historyUndo h = History.undo h) ∧
    (∀ h : History, TextEditor.historyRedo h = History.redo h) :=
  ⟨te_movePosition_eq, te_getText_eq, te_insertText_eq, te_removeText_eq,
   te_doChange_eq, te_invertChange_eq, te_undo_eq, te_redo_eq,
   te_insertTextAction_eq, te_removeTextAction_eq,
   fun _ _ => rfl, fun _ => rfl, fun _ => rfl, fun _ => rfl, fun _ => rfl⟩
